import Mathlib

/-!
# Verification of the whereismytime core algorithms

Shallow embedding of the core data transformations of the
whereismytime mobile app:

* `EventDurationService` (effective-duration allocation engine),
* `EventsService.getEventsPaginated` (cursor pagination),
* `EventCategorizationService` (rule-based classification),
* `CategoryService` (category tree mutations),
* `groupEvents` (calendar-grid packing).

Timestamps are modelled as integers (milliseconds since epoch,
`Date.getTime()`); nullable columns as `Option`; fractional slice
durations as rationals.  JavaScript truthiness of nullable strings /
booleans is modelled explicitly.
-/

namespace WIMT

/-- JS truthiness of a nullable string (`null`/`''` are falsy). -/
def strTruthy : Option String → Bool
  | none => false
  | some s => s ≠ ""

/-- JS truthiness of a nullable boolean (`null`/`false` are falsy). -/
def boolTruthy : Option Bool → Bool
  | none => false
  | some b => b

/-- A row of the `events` table (`DBEvent` in `src/db/schema.ts`);
`title`, `effectiveDuration` are NOT NULL, the rest of the modelled
columns are nullable.  `start`/`end` are millisecond timestamps. -/
structure DBEvent where
  id : String
  title : String := ""
  isAllDay : Option Bool := none
  start : Option Int := none
  «end» : Option Int := none
  effectiveDuration : Nat := 0
  categoryId : Option String := none
  isManuallyCategorized : Option Bool := none
deriving Repr, DecidableEq, Inhabited

/-! ## `EventDurationService` (duration allocation engine)

From `EventDurationService.recalculateDurations` and its helpers.
The in-place mutation of the fetched event objects is modelled by
updating the list of events positionally (`bumpEff`); the index lists
produced by `activeIndices` play the role of the object references in
`slice_events`. -/

/-- `_pad_date_range`: 1 hour of padding on both sides. -/
def _pad_date_range (d1 d2 : Int) : Int × Int :=
  (d1 - 60 * 60 * 1000, d2 + 60 * 60 * 1000)

/-- The filter of `_get_events_in_range`: events with non-null
`start`/`end` such that `start <= from && end >= to`. -/
def inSlice (e : DBEvent) (lo hi : Int) : Bool :=
  match e.start, e.«end» with
  | some s, some t => decide (s ≤ lo) && decide (hi ≤ t)
  | _, _ => false

/-- `_get_events_in_range`. -/
def _get_events_in_range (events : List DBEvent) (lo hi : Int) : List DBEvent :=
  events.filter (fun e => inSlice e lo hi)

/-- `_getAllBoundaries`: the deduplicated, sorted list of all non-null
start and end timestamps.  (The source dedups via a `Set` of ISO
strings and sorts lexicographically, which agrees with the numeric
order of the underlying timestamps.) -/
def _getAllBoundaries (events : List DBEvent) : List Int :=
  let collected := events.foldl (fun acc e => acc ++ e.start.toList ++ e.«end».toList) []
  collected.dedup.insertionSort (· ≤ ·)

/-- Add one minute to the working duration of the event at position
`j` (the `event.effectiveDuration += 1` mutation). -/
def bumpEff (evts : List DBEvent) (j : Nat) : List DBEvent :=
  match evts[j]? with
  | some e => evts.set j { e with effectiveDuration := e.effectiveDuration + 1 }
  | none => evts

/-- Positions (into the fetched list) of the events active in the
slice `[lo, hi)`; `slice_events[k]` in the source is the event at
position `(activeIndices evts lo hi).get k`. -/
def activeIndices (evts : List DBEvent) (lo hi : Int) : List Nat :=
  (List.range evts.length).filter (fun j => inSlice (evts.getD j default) lo hi)

/-- The round-robin `do … while (slice_duration > 0)` loop of
`recalculateDurations`: repeatedly add one minute to the next active
event (cyclically), subtracting 1 from the remaining (rational) slice
duration; break immediately if there is no active event. -/
def allocLoop (act : List Nat) (eventIdx : Nat) (evts : List DBEvent)
    (slice_duration : ℚ) : List DBEvent :=
  match act[eventIdx]? with
  | none => evts
  | some j =>
    let evts' := bumpEff evts j
    let d' := slice_duration - 1
    if h : 0 < d' then
      allocLoop act ((eventIdx + 1) % act.length) evts' d'
    else
      evts'
termination_by (⌈slice_duration⌉).toNat
decreasing_by
  have hc : ⌈slice_duration - 1⌉ = ⌈slice_duration⌉ - 1 := Int.ceil_sub_one slice_duration
  have hp : 0 < ⌈slice_duration - 1⌉ := Int.ceil_pos.mpr h
  omega

/-- Structural version of `allocLoop` counting down the number of
whole minutes still to allocate. -/
def allocRR : List Nat → Nat → List DBEvent → Nat → List DBEvent
  | _, _, evts, 0 => evts
  | act, eventIdx, evts, T + 1 =>
    match act[eventIdx]? with
    | none => evts
    | some j => allocRR act ((eventIdx + 1) % act.length) (bumpEff evts j) T

/-- `recalculateDurations` after the fetch: reset every working
duration to 0, decompose boundaries, and allocate every slice
round-robin.  (The DB write-back persists exactly these values.) -/
def recalcCore (events : List DBEvent) : List DBEvent :=
  let evts0 := events.map (fun e => { e with effectiveDuration := 0 })
  let boundaries := _getAllBoundaries evts0
  (boundaries.zip boundaries.tail).foldl
    (fun evts sl =>
      let act := activeIndices evts sl.1 sl.2
      let slice_duration : ℚ := ((sl.2 - sl.1 : Int) : ℚ) / (1000 * 60)
      allocLoop act 0 evts slice_duration)
    evts0

/-- Integer form of `⌈d / 60000⌉` (used to evaluate the engine on
concrete inputs, since rational arithmetic does not reduce in the
kernel). -/
def minutesCeil (d : Int) : Int := -((-d) / 60000)

/-- Fully executable version of `recalcCore` (integer arithmetic only). -/
def recalcRR (events : List DBEvent) : List DBEvent :=
  let evts0 := events.map (fun e => { e with effectiveDuration := 0 })
  let boundaries := _getAllBoundaries evts0
  (boundaries.zip boundaries.tail).foldl
    (fun evts sl =>
      let act := activeIndices evts sl.1 sl.2
      allocRR act 0 evts (max 1 (minutesCeil (sl.2 - sl.1)).toNat))
    evts0

/-! ### Round-robin bookkeeping -/

/-- Working duration of the event at position `j`. -/
def effAt (evts : List DBEvent) (j : Nat) : Nat :=
  (evts.getD j default).effectiveDuration

/-- Number of allocations landing on rotation position `p` when `T`
one-minute allocations are performed starting from rotation position
`idx` over `n` active events. -/
def rrHits : Nat → Nat → Nat → Nat → Nat
  | _, _, _, 0 => 0
  | n, idx, p, T + 1 => (if idx = p then 1 else 0) + rrHits n ((idx + 1) % n) p T

/-- Event A, `[09:00, 10:00)` on some day, in milliseconds of the day. -/
def eventA : DBEvent :=
  { id := "A", start := some 32400000, «end» := some 36000000, effectiveDuration := 60 }

/-- Event B, `[09:30, 10:30)`. -/
def eventB : DBEvent :=
  { id := "B", start := some 34200000, «end» := some 37800000, effectiveDuration := 60 }

/-! ### Claim C7: throttled progress callbacks

`EventDurationService._updateProgress` keeps a persistent counter
(`_progressCounter`, initialised to 0): the first ten invocations are
swallowed (`counter < 10` increments and returns), the eleventh
resets the counter and forwards the call to `onProgress`. -/

/-- One `_updateProgress` call: given the current `_progressCounter`,
returns the new counter and whether `onProgress` was invoked. -/
def _updateProgress (counter : Nat) : Nat × Bool :=
  if counter < 10 then (counter + 1, false) else (0, true)

/-- Run a sequence of `_updateProgress` calls, collecting the
delivered ones. -/
def runThrottle (counter : Nat) : List α → List α
  | [] => []
  | c :: rest =>
    if ((_updateProgress counter).2) then c :: runThrottle (_updateProgress counter).1 rest
    else runThrottle (_updateProgress counter).1 rest

/-- The `(phase, completed, total)` arguments with which
`recalculateDurations` invokes `_updateProgress`: once per slice of
the boundary loop, then once per event of the DB write-back loop. -/
def progressCalls (events : List DBEvent) : List (String × Nat × Nat) :=
  let evts0 := events.map (fun e => { e with effectiveDuration := 0 })
  let total1 := (_getAllBoundaries evts0).length - 1
  ((List.range total1).map (fun i => ("splitting_boundaries", i + 1, total1))) ++
    ((List.range events.length).map (fun i => ("updating_database", i + 1, events.length)))

/-- The progress invocations actually delivered to `onProgress` during
one `recalculateDurations` run on a freshly constructed service
(`_progressCounter = 0`). -/
def progressTrace (events : List DBEvent) : List (String × Nat × Nat) :=
  runThrottle 0 (progressCalls events)

/-- A single one-minute event used as the C7 counterexample. -/
def eventC7 : DBEvent :=
  { id := "E1", start := some 0, «end» := some 60000, effectiveDuration := 1 }

/-- Deliver exactly every 11th element (1-based) of a list. -/
def everyNth (n : Nat) (l : List α) : List α :=
  (l.enum.filter (fun p => (p.1 + 1) % n = 0)).map (·.2)

/-! ## Category data model (`schema.ts`, `category_rule.ts`) -/

/-- A classification rule; `type` is kept as a string because the
matcher switches on it with a default case. -/
structure CategoryRule where
  type : String
  content : String
deriving Repr, DecidableEq, Inhabited

/-- A row of the `categories` table; `priority` and `rules` are
nullable columns. -/
structure Category where
  id : String
  name : String
  color : String
  priority : Option Int := none
  rules : Option (List CategoryRule) := none
  parentCategoryId : Option String := none
deriving Repr, DecidableEq, Inhabited

/-- The virtual category for uncategorized events. -/
def UNCATEGORIZED_CATEGORY : Category :=
  { id := "__uncategorized__", name := "Uncategorized", color := "#9CA3AF",
    priority := some (-1), rules := none, parentCategoryId := none }

/-! ## `CategoryService` (claims C8 and C10)

The `categories` table is a `List Category`; each operation returns
the post-state of the table together with its result, an
`Except`-value whose `error` case models a thrown `Error`. -/

/-- `getCategoryById`: the virtual uncategorized category, else the
first stored row with the id (`select … where … limit 1`). -/
def getCategoryById (store : List Category) (id : String) : Option Category :=
  if id = UNCATEGORIZED_CATEGORY.id then some UNCATEGORIZED_CATEGORY
  else store.find? (fun c => c.id = id)

/-- The `while (currentId)` walk of `wouldCreateCircularReference`,
with explicit fuel (the source loop is unbounded; every theorem
supplies enough fuel for the chain it talks about). -/
def circularWalk (store : List Category) (categoryId : String) : Nat → Option String → Bool
  | _, none => false
  | 0, some _ => false
  | fuel + 1, some currentId =>
    if currentId = "" then false
    else if currentId = categoryId then true
    else
      match getCategoryById store currentId with
      | none => false
      | some parent => circularWalk store categoryId fuel parent.parentCategoryId

/-- `wouldCreateCircularReference`. -/
def wouldCreateCircularReference (fuel : Nat) (store : List Category)
    (categoryId potentialParentId : String) : Bool :=
  if categoryId = potentialParentId then true
  else circularWalk store categoryId fuel (some potentialParentId)

/-- `UpdateCategoryInput`; `none` models an absent (`undefined`) field. -/
structure UpdateCategoryInput where
  name : Option String := none
  color : Option String := none
  priority : Option Int := none
  rules : Option (List CategoryRule) := none
  parentCategoryId : Option String := none
deriving Repr, DecidableEq, Inhabited

/-- The `.set({...})` object of `updateCategory`: `name`/`color` are
included when truthy, `priority`/`rules`/`parentCategoryId` when not
`undefined`; omitted fields leave the column unchanged. -/
def applyUpdate (c : Category) (input : UpdateCategoryInput) : Category :=
  { c with
    name := if strTruthy input.name then input.name.getD c.name else c.name
    color := if strTruthy input.color then input.color.getD c.color else c.color
    priority := match input.priority with
      | some p => some p
      | none => c.priority
    rules := match input.rules with
      | some r => some r
      | none => c.rules
    parentCategoryId := match input.parentCategoryId with
      | some pid => some pid
      | none => c.parentCategoryId }

/-- `updateCategory`: circular-reference guard (only when the new
parent id is truthy), then a row update by id, returning the updated
row (or `null`). -/
def updateCategory (fuel : Nat) (store : List Category) (id : String)
    (input : UpdateCategoryInput) : List Category × Except String (Option Category) :=
  if strTruthy input.parentCategoryId ∧
      wouldCreateCircularReference fuel store id (input.parentCategoryId.getD "") then
    (store, Except.error "Cannot set parent category: would create circular reference")
  else
    let newStore := store.map (fun c => if c.id = id then applyUpdate c input else c)
    (newStore, Except.ok (newStore.find? (fun c => c.id = id)))

/-- `moveCategory`: guard (only for truthy `newParentId`), then
`updateCategory` with `parentCategoryId: newParentId || undefined`. -/
def moveCategory (fuel : Nat) (store : List Category) (categoryId : String)
    (newParentId : Option String) : List Category × Except String (Option Category) :=
  if strTruthy newParentId then
    if wouldCreateCircularReference fuel store categoryId (newParentId.getD "") then
      (store, Except.error "Cannot move category: would create circular reference")
    else updateCategory fuel store categoryId { parentCategoryId := newParentId }
  else updateCategory fuel store categoryId { parentCategoryId := none }

/-- `b` descends from `a` in exactly `n` steps of the stored
`parentCategoryId` links (as traversed via `getCategoryById`); every
intermediate id is a truthy (non-empty) string. -/
def descendsIn (store : List Category) (a : String) : Nat → String → Prop
  | 0, b => b = a
  | n + 1, b => b ≠ "" ∧ ∃ (c : Category) (next : String),
      getCategoryById store b = some c ∧ c.parentCategoryId = some next ∧
      descendsIn store a n next

/-- Witness store for C8: `catY` is a child of `catX`. -/
def catX : Category := { id := "X", name := "Root", color := "#fff" }

/-- Child category of `catX`. -/
def catY : Category :=
  { id := "Y", name := "Child", color := "#000", parentCategoryId := some "X" }

/-! ## `EventCategorizationService` (claims C5 and C6)

Regex matching (`new RegExp(content, 'i').test(title)`, with invalid
patterns caught and treated as non-matching) is abstracted as an
arbitrary boolean function `regexTest : pattern → title → Bool`; all
theorems hold for every such function.  String operations use the
character lists underneath Lean strings, matching the JavaScript
`startsWith`/`endsWith`/`includes` semantics. -/

/-- JS `String.prototype.includes` on character lists: some (possibly
empty) prefix position where `pat` occurs. -/
def containsSub : List Char → List Char → Bool
  | pat, [] => pat.isEmpty
  | pat, c :: rest => pat.isPrefixOf (c :: rest) || containsSub pat rest

/-- `eventMatchesRule`: switch on the rule's `type` string, with a
default case; the title is `event.title || ''`, which is the title
itself (`title` is NOT NULL and `'' || '' === ''`). -/
def eventMatchesRule (regexTest : String → String → Bool) (event : DBEvent)
    (rule : CategoryRule) : Bool :=
  let title := event.title
  match rule.type with
  | "EQUALS" => title == rule.content
  | "STARTS_WITH" => rule.content.data.isPrefixOf title.data
  | "ENDS_WITH" => rule.content.data.isSuffixOf title.data
  | "CONTAINS" => containsSub rule.content.data title.data
  | "REGEX" => regexTest rule.content title
  | _ => false

/-- The ordering of `getCategories`' `orderBy(desc(priority), name)`:
priority descending with SQLite `NULL` below every integer (hence
last in descending order), ties by name ascending. -/
def catBefore (a b : Category) : Bool :=
  match a.priority, b.priority with
  | some pa, some pb => if pa = pb then a.name ≤ b.name else pb < pa
  | some _, none => true
  | none, some _ => false
  | none, none => a.name ≤ b.name

/-- `getCategories`: the category table sorted by the `orderBy`
clause (the per-instance cache is transparent: it always holds exactly
this list). -/
def getCategories (cats : List Category) : List Category :=
  cats.insertionSort (fun a b => catBefore a b = true)

/-- The doubly nested `for` loop of `categorizeEvent`: first category
(in `getCategories` order) with a non-null, non-empty rule list whose
first matching rule exists — returns that category and rule. -/
def firstMatch (regexTest : String → String → Bool) (event : DBEvent) :
    List Category → Option (Category × CategoryRule)
  | [] => none
  | cat :: rest =>
    match cat.rules with
    | none => firstMatch regexTest event rest
    | some rules =>
      if rules.isEmpty then firstMatch regexTest event rest
      else
        match rules.find? (fun r => eventMatchesRule regexTest event r) with
        | some r => some (cat, r)
        | none => firstMatch regexTest event rest

/-- `CategorizationResult`. -/
structure CategorizationResult where
  eventId : String
  categoryId : Option String
  matchedRule : Option CategoryRule := none
  isManuallyCategorized : Option Bool := none
deriving Repr, DecidableEq, Inhabited

/-- A drizzle `update(events).set(f).where(cond)` over the events
table. -/
def dbUpdateWhere (cond : DBEvent → Bool) (f : DBEvent → DBEvent)
    (store : List DBEvent) : List DBEvent :=
  store.map (fun e => if cond e then f e else e)

/-- `categorizeEvent`: manually categorized events are returned
untouched; otherwise the first matching category is written to the
event row; with no match anywhere, a stale auto-assignment is cleared. -/
def categorizeEvent (regexTest : String → String → Bool) (cats : List Category)
    (store : List DBEvent) (event : DBEvent) : List DBEvent × CategorizationResult :=
  if boolTruthy event.isManuallyCategorized then
    (store, { eventId := event.id, categoryId := event.categoryId,
              isManuallyCategorized := some true })
  else
    match firstMatch regexTest event (getCategories cats) with
    | some (cat, rule) =>
      (dbUpdateWhere (fun e => e.id == event.id)
          (fun e => { e with categoryId := some cat.id, isManuallyCategorized := some false })
          store,
        { eventId := event.id, categoryId := some cat.id, matchedRule := some rule,
          isManuallyCategorized := some false })
    | none =>
      if !boolTruthy event.isManuallyCategorized && strTruthy event.categoryId then
        (dbUpdateWhere (fun e => e.id == event.id)
            (fun e => { e with categoryId := none, isManuallyCategorized := none })
            store,
          { eventId := event.id, categoryId := none, isManuallyCategorized := some false })
      else
        (store, { eventId := event.id, categoryId := none, isManuallyCategorized := some false })

/-- `CategorizationStats`; `autoCategories` is the object keyed by the
assigned category id, as an association list. -/
structure CategorizationStats where
  total : Nat
  categorized : Nat
  uncategorized : Nat
  autoCategories : List (String × Nat)
deriving Repr, DecidableEq, Inhabited

/-- `stats.autoCategories[k] = (stats.autoCategories[k] || 0) + 1`. -/
def bumpCount (m : List (String × Nat)) (k : String) : List (String × Nat) :=
  if m.any (fun p => p.1 == k) then m.map (fun p => if p.1 == k then (p.1, p.2 + 1) else p)
  else m ++ [(k, 1)]

/-- The SQL filter of the no-ids branch of `categorizeEvents`:
`isManuallyCategorized = false OR isManuallyCategorized IS NULL`. -/
def notManualFilter (e : DBEvent) : Bool :=
  match e.isManuallyCategorized with
  | some false => true
  | none => true
  | some true => false

/-- The loop body of `categorizeEvents`: classify one captured row
against the current store and update the running stats. -/
def categorizeStep (regexTest : String → String → Bool) (cats : List Category)
    (acc : List DBEvent × CategorizationStats) (ev : DBEvent) :
    List DBEvent × CategorizationStats :=
  let r := categorizeEvent regexTest cats acc.1 ev
  if strTruthy r.2.categoryId then
    (r.1, { acc.2 with
            categorized := acc.2.categorized + 1
            autoCategories := bumpCount acc.2.autoCategories (r.2.categoryId.getD "") })
  else
    (r.1, { acc.2 with uncategorized := acc.2.uncategorized + 1 })

/-- `categorizeEvents`: select the events to process (by explicit ids,
or all not-manually-categorized events), then run `categorizeEvent` on
each captured row in order, threading the store and accumulating
stats. -/
def categorizeEvents (regexTest : String → String → Bool) (cats : List Category)
    (store : List DBEvent) (eventIds : Option (List String)) :
    List DBEvent × CategorizationStats :=
  let eventsToProcess : List DBEvent := match eventIds with
    | some ids => store.filter (fun e => ids.contains e.id)
    | none => store.filter notManualFilter
  eventsToProcess.foldl (categorizeStep regexTest cats)
    (store, { total := eventsToProcess.length, categorized := 0, uncategorized := 0,
              autoCategories := [] })

/-- `recategorizeEventsForCategory`: select the rows auto-assigned to
the category, clear them in one bulk update, then re-classify each
captured row (with its category fields nulled, as the source spreads
into `updatedEvent`). -/
def recategorizeEventsForCategory (regexTest : String → String → Bool)
    (cats : List Category) (store : List DBEvent) (categoryId : String) :
    List DBEvent × Nat :=
  let categoryEvents := store.filter
    (fun e => e.categoryId == some categoryId && e.isManuallyCategorized == some false)
  let ids := categoryEvents.map (fun e => e.id)
  let cleared := dbUpdateWhere (fun e => ids.contains e.id)
    (fun e => { e with categoryId := none, isManuallyCategorized := none }) store
  let final := categoryEvents.foldl
    (fun st ev =>
      (categorizeEvent regexTest cats st
        { ev with categoryId := none, isManuallyCategorized := none }).1)
    cleared
  (final, categoryEvents.length)

/-- The regex evaluator used by concrete witnesses (its value is
irrelevant to every theorem: they hold for all evaluators). -/
def rtNone : String → String → Bool := fun _ _ => false

/-- A manually categorized event row. -/
def manualEvent : DBEvent :=
  { id := "M", title := "Gym", categoryId := some "cat1", isManuallyCategorized := some true }

/-- The "Work" category of the spec's concrete scenario. -/
def catWork : Category :=
  { id := "work", name := "Work", color := "#111", priority := some 10,
    rules := some [{ type := "CONTAINS", content := "meeting" }] }

/-- The "Personal" category of the spec's concrete scenario. -/
def catPersonal : Category :=
  { id := "personal", name := "Personal", color := "#222", priority := some 5,
    rules := some [{ type := "CONTAINS", content := "gym" }] }

/-- An auto-categorizable event titled "Team meeting". -/
def meetingEvent : DBEvent := { id := "E", title := "Team meeting" }

/-! ## `groupEvents` (calendar grid packing, claim C9)

Claim C9 is about inputs whose events all have non-null `start`/`end`
(the source dereferences them with `!`), so the layout event type has
total timestamps.  ISO-string boundary keys sort like the underlying
timestamps. -/

/-- A laid-out event (non-null `start`/`end`). -/
structure LEvent where
  id : String
  start : Int
  «end» : Int
deriving Repr, DecidableEq, Inhabited

/-- `EventBlockData`: the event together with its fractional width. -/
structure EventBlockData where
  event : LEvent
  width : ℚ
deriving Repr, DecidableEq, Inhabited

/-- `event.start < e.end && event.end > e.start` for any member of the
current group. -/
def overlapsGroup (g : List LEvent) (e : LEvent) : Bool :=
  g.any (fun o => decide (e.start < o.«end») && decide (e.«end» > o.start))

/-- The greedy grouping scan, with the group list reversed (head =
the current group, which in the source is aliased by `currentGroup`
inside `groupedEvents`). -/
def buildGroupsRev (events : List LEvent) : List (List LEvent) :=
  events.foldl
    (fun rgroups event =>
      match rgroups with
      | [] => [[event]]
      | cur :: rest =>
        if overlapsGroup cur event then (cur ++ [event]) :: rest
        else [event] :: cur :: rest)
    []

/-- The inner loop of `layDownEqualDurationEvents`: push the current
width, then shrink it by `1 / group.length`. -/
def layDown (n : Nat) : List LEvent → ℚ → List EventBlockData
  | [], _ => []
  | e :: rest, width =>
    { event := e, width := width } :: layDown n rest (width - 1 / (n : ℚ))

/-- `layDownEqualDurationEvents`. -/
def layDownEqualDurationEvents (group : List LEvent) : List EventBlockData :=
  layDown group.length group 1

/-- The event ids pushed onto the boundary's `start` list (insertion
order = group order). -/
def startsAt (group : List LEvent) (t : Int) : List String :=
  (group.filter (fun e => e.start = t)).map (fun e => e.id)

/-- The event ids pushed onto the boundary's `end` list. -/
def endsAt (group : List LEvent) (t : Int) : List String :=
  (group.filter (fun e => e.«end» = t)).map (fun e => e.id)

/-- The sorted boundary keys of the group's `boundaryMap`. -/
def boundKeys (group : List LEvent) : List Int :=
  ((group.foldl (fun acc e => acc ++ [e.start, e.«end»]) []).dedup).insertionSort (· ≤ ·)

/-- `eventIdToWidthMap.set` (a JS `Map`: overwrite or append). -/
def wmSet (wm : List (String × ℚ)) (k : String) (w : ℚ) : List (String × ℚ) :=
  if wm.any (fun p => p.1 == k) then wm.map (fun p => if p.1 == k then (k, w) else p)
  else wm ++ [(k, w)]

/-- `eventIdToWidthMap.get`. -/
def wmGet (wm : List (String × ℚ)) (k : String) : Option ℚ :=
  (wm.find? (fun p => p.1 == k)).map (fun p => p.2)

/-- The activation loop at one boundary: each newly activated event
gets `1 - activeCount * 0.25`, floored at `0.25` once four events are
active; `activeIds.add` appends only if absent. -/
def processStarts : List String × List (String × ℚ) → List String →
    List String × List (String × ℚ)
  | acc, [] => acc
  | acc, sid :: rest =>
    let w : ℚ := if acc.1.length < 4 then 1 - (acc.1.length : ℚ) * (1 / 4) else 1 / 4
    let wm := wmSet acc.2 sid w
    let act := if acc.1.contains sid then acc.1 else acc.1 ++ [sid]
    processStarts (act, wm) rest

/-- One boundary of the sweep: deactivations first, then activations. -/
def sweepKey (group : List LEvent) (acc : List String × List (String × ℚ)) (t : Int) :
    List String × List (String × ℚ) :=
  let act1 := acc.1.filter (fun id => !((endsAt group t).contains id))
  processStarts (act1, acc.2) (startsAt group t)

/-- The width map produced by the sweep over all boundaries. -/
def generalWidths (group : List LEvent) : List (String × ℚ) :=
  ((boundKeys group).foldl (sweepKey group) ([], [])).2

/-- `eventIdToWidthMap.get(e.id) || 1` (0 and a missing entry are both
falsy). -/
def widthFallback : Option ℚ → ℚ
  | none => 1
  | some w => if w = 0 then 1 else w

/-- `groupEvents`. -/
def groupEvents (events : List LEvent) : List EventBlockData :=
  if events.isEmpty then []
  else
    ((buildGroupsRev events).reverse).foldl
      (fun out group =>
        if group.length = 1 then
          out ++ group.map (fun e => { event := e, width := 1 })
        else if ((group.map (fun e => e.start)).dedup.length == 1) &&
            ((group.map (fun e => e.«end»)).dedup.length == 1) then
          out ++ layDownEqualDurationEvents group
        else
          out ++ group.map
            (fun e => { event := e, width := widthFallback (wmGet (generalWidths group) e.id) }))
      []

/-- Witness event for C9. -/
def soloEvent : LEvent := { id := "a", start := 0, «end» := 100 }

/-! ### Claim C1: duration conservation

`recalculateDurations` conserves time: over minute-aligned events the
total of the recomputed effective durations equals the measure (in
minutes) of the union of the events' half-open intervals. -/

/-- Total effective duration of a list of events. -/
def sumEff (evts : List DBEvent) : Nat :=
  (evts.map (fun e => e.effectiveDuration)).sum

/-- The `(start, end)` columns only — the part of the store the
allocation engine reads but never writes. -/
def timesOf (evts : List DBEvent) : List (Option Int × Option Int) :=
  evts.map (fun e => (e.start, e.«end»))

/-- Minute `m` (i.e. the interval `[60000*m, 60000*(m+1))`) is inside
some event's `[start, end)`. -/
def minuteCovered (events : List DBEvent) (m : Int) : Bool :=
  events.any (fun e =>
    match e.start, e.«end» with
    | some s, some t => decide (s ≤ 60000 * m) && decide (60000 * (m + 1) ≤ t)
    | _, _ => false)

/-- Lebesgue measure, in whole minutes, of the union of the events'
intervals, computed inside the ambient minute window `[lo, hi)`. -/
def coveredMinutes (events : List DBEvent) (lo hi : Int) : Nat :=
  ((Finset.Ico lo hi).filter (fun m => minuteCovered events m = true)).card

/-- The per-slice contributions of the engine: `(b2 - b1) / 60000`
minutes for every slice with at least one active event. -/
def sliceSum (events : List DBEvent) : List (Int × Int) → Nat
  | [] => 0
  | (b1, b2) :: rest =>
    (if activeIndices events b1 b2 = [] then 0 else ((b2 - b1) / 60000).toNat) +
      sliceSum events rest

/-- The accumulator of `_getAllBoundaries` (all non-null starts and
ends, in scan order). -/
def collectTimes (events : List DBEvent) : List Int :=
  events.foldl (fun acc e => acc ++ e.start.toList ++ e.«end».toList) []

/-! ### Paginated fetch (`EventsService.getEventsPaginated` and
`EventDurationService._fetch_all_events`) -/

/-- `EventCursor` of `EventsService`. -/
structure EventCursor where
  start : Int
  id : String
deriving Repr, DecidableEq

/-- `EventsPageResult` of `EventsService` (the category join is not
modelled; it does not affect which events are returned). -/
structure EventsPageResult where
  events : List DBEvent
  hasMore : Bool
  nextCursor : Option EventCursor
deriving Repr, DecidableEq

/-- SQL `ORDER BY start ASC` key: `NULL` starts sort first. -/
def startKey (e : DBEvent) : WithBot Int :=
  match e.start with
  | none => ⊥
  | some s => (s : WithBot Int)

/-- The composite `ORDER BY start ASC, id ASC` sort key. -/
def keyOf (e : DBEvent) : Lex (WithBot Int × String) := toLex (startKey e, e.id)

def rowLe (a b : DBEvent) : Prop := keyOf a ≤ keyOf b

instance : DecidableRel rowLe :=
  fun a b => inferInstanceAs (Decidable (keyOf a ≤ keyOf b))

instance : IsTotal DBEvent rowLe := ⟨fun a b => le_total (keyOf a) (keyOf b)⟩

instance : IsTrans DBEvent rowLe := ⟨fun _ _ _ hab hbc => le_trans hab hbc⟩

/-- The stored table in query order (`ORDER BY start ASC, id ASC`). -/
def sortByStartId (store : List DBEvent) : List DBEvent :=
  store.insertionSort rowLe

/-- The `WHERE` clause of `getEventsPaginated` for the `future`
direction: `start > refDate` without a cursor, and keyset condition
`(start > c.start) OR (start = c.start AND id > c.id)` with one.
Rows with `NULL` start never satisfy either (SQL three-valued
logic). -/
def pageCond (cursor : Option EventCursor) (refDate : Int) (e : DBEvent) : Bool :=
  match cursor with
  | none =>
    match e.start with
    | some s => decide (refDate < s)
    | none => false
  | some c =>
    match e.start with
    | some s => decide (c.start < s) || (decide (s = c.start) && decide (c.id < e.id))
    | none => false

/-- The ordered, filtered query result truncated by
`limit(pageSize + 1)`. -/
def pageResults (store : List DBEvent) (pageSize : Nat)
    (cursor : Option EventCursor) (refDate : Int) : List DBEvent :=
  ((sortByStartId store).filter (pageCond cursor refDate)).take (pageSize + 1)

/-- `EventsService.getEventsPaginated`, `future` direction. -/
def getEventsPaginated (store : List DBEvent) (pageSize : Nat)
    (cursor : Option EventCursor) (refDate : Int) : EventsPageResult :=
  let results := pageResults store pageSize cursor refDate
  let hasMore := decide (pageSize < results.length)
  let eventsList := if hasMore then results.take pageSize else results
  let nextCursor :=
    if hasMore && !eventsList.isEmpty then
      match eventsList.getLast? with
      | some le =>
        match le.start with
        | some s => some { start := s, id := le.id }
        | none => none
      | none => none
    else none
  { events := eventsList, hasMore := hasMore, nextCursor := nextCursor }

/-- The per-event skip test of `_fetch_all_events`:
`event.isAllDay || (event.start && event.start > to)`. -/
def skipEvent (hi : Int) (e : DBEvent) : Bool :=
  boolTruthy e.isAllDay ||
    (match e.start with
     | some s => decide (hi < s)
     | none => false)

/-- The `do … while (hasMore)` pagination loop of
`_fetch_all_events`, with explicit fuel for the unbounded JS loop. -/
def fetchLoop (store : List DBEvent) (refDate hi : Int) :
    Nat → Option EventCursor → List DBEvent → List DBEvent
  | 0, _, acc => acc
  | fuel + 1, cursor, acc =>
    let r := getEventsPaginated store 500 cursor refDate
    let kept := r.events.filter (fun e => !skipEvent hi e)
    let hasMore := r.hasMore && !kept.isEmpty
    if hasMore then fetchLoop store refDate hi fuel r.nextCursor (acc ++ kept)
    else acc ++ kept

/-- `EventDurationService._fetch_all_events` (page size 500, `future`
direction, reference date = padded `from`). -/
def _fetch_all_events (fuel : Nat) (store : List DBEvent) (lo hi : Int) : List DBEvent :=
  fetchLoop store lo hi fuel none []

/-- A timed event starting exactly at the padded window's lower bound
and still ongoing inside the window. -/
def eventC3 : DBEvent :=
  { id := "E", start := some 0, «end» := some 7200000, isAllDay := some false }

/-- The events `_fetch_all_events` actually keeps: timed events with
`paddedFrom < start ≤ paddedTo`. -/
def inWindow (lo hi : Int) (e : DBEvent) : Bool :=
  match e.start with
  | some s => decide (lo < s) && decide (s ≤ hi)
  | none => false

/-- The keyset cursor as a sort key. -/
def cursorKey (c : EventCursor) : Lex (WithBot Int × String) :=
  toLex ((c.start : WithBot Int), c.id)

def eventC3w : DBEvent :=
  { id := "W", start := some 100, «end» := some 200, isAllDay := some false }

/-- An all-day event inside the recalculation window (stored, paged,
but skipped by the fetch loop). -/
def eventC3a : DBEvent :=
  { id := "A", start := some 50, «end» := some 60, isAllDay := some true }

/-- An event the fetch loop keeps: a timed (non-all-day) event with
`paddedFrom < start ≤ paddedTo`. -/
def wantEvent (lo hi : Int) (e : DBEvent) : Bool :=
  !boolTruthy e.isAllDay && inWindow lo hi e

/-- Reference model of the pagination loop: the candidate rows
(sorted by `(start, id)`, restricted by the strict `start > from`
condition) are consumed in pages of 500; each page contributes its
non-skipped rows, and — because of `hasMore = r.hasMore && gotOne` —
a full page contributing nothing aborts the loop, dropping every
later candidate. -/
def chunkedFetch (hi : Int) : Nat → List DBEvent → List DBEvent
  | 0, _ => []
  | fuel + 1, F =>
    if 501 ≤ F.length then
      let kept := (F.take 500).filter (fun e => !skipEvent hi e)
      if kept.isEmpty then [] else kept ++ chunkedFetch hi fuel (F.drop 500)
    else F.filter (fun e => !skipEvent hi e)

/-- The do-while loop allocates exactly `max 1 ⌈slice_duration⌉`
whole minutes (one minute is allocated even for non-positive
durations, because the condition is checked after the body). -/
theorem allocLoop_eq_allocRR (act : List Nat) (eventIdx : Nat) (evts : List DBEvent)
    (q : ℚ) : allocLoop act eventIdx evts q = allocRR act eventIdx evts (max 1 (⌈q⌉).toNat) := by
  generalize hn : (⌈q⌉).toNat = n
  induction n using Nat.strong_induction_on generalizing q eventIdx evts with
  | _ n ih =>
    rw [allocLoop]
    cases hget : act[eventIdx]? with
    | none =>
      obtain ⟨m, hm⟩ : ∃ m, max 1 n = m + 1 := ⟨max 1 n - 1, by omega⟩
      rw [hm]
      simp [allocRR, hget]
    | some j =>
      simp only
      have hc : ⌈q - 1⌉ = ⌈q⌉ - 1 := Int.ceil_sub_one q
      by_cases h : 0 < q - 1
      · have hp : 0 < ⌈q - 1⌉ := Int.ceil_pos.mpr h
        have h2 : 2 ≤ ⌈q⌉ := by omega
        have hn' : (⌈q - 1⌉).toNat = n - 1 := by omega
        have hlt : n - 1 < n := by omega
        rw [dif_pos h, ih (n - 1) hlt _ _ _ hn']
        have hmax : max 1 n = (max 1 (n - 1)) + 1 := by omega
        rw [hmax]
        simp [allocRR, hget]
      · have hle : ⌈q - 1⌉ ≤ 0 := by
          by_contra hcon
          exact h (Int.ceil_pos.mp (by omega))
        have hn1 : n ≤ 1 := by omega
        have hmax : max 1 n = 1 := by omega
        rw [dif_neg h, hmax]
        simp [allocRR, hget]

theorem minutesCeil_eq (d : Int) : ⌈((d : ℚ)) / (1000 * 60)⌉ = minutesCeil d := by
  have h : ((1000 * 60 : ℚ)) = ((60000 : ℕ) : ℚ) := by norm_num
  rw [h, show ((d : ℚ)) / ((60000 : ℕ) : ℚ) = -((((-d : ℤ)) : ℚ) / ((60000 : ℕ) : ℚ)) by
    push_cast; ring]
  rw [Int.ceil_neg, Rat.floor_intCast_div_natCast]
  rfl

theorem recalcCore_eq_recalcRR (events : List DBEvent) :
    recalcCore events = recalcRR events := by
  unfold recalcCore recalcRR
  refine List.foldl_ext _ _ _ (fun evts sl _ => ?_)
  rw [allocLoop_eq_allocRR, minutesCeil_eq]

/-- The position-based active list corresponds pointwise to
`_get_events_in_range` on the same event list. -/
theorem activeIndices_map_getD (evts : List DBEvent) (lo hi : Int) :
    (activeIndices evts lo hi).map (fun j => evts.getD j default) =
      _get_events_in_range evts lo hi := by
  unfold activeIndices _get_events_in_range
  induction evts with
  | nil => simp
  | cons e tl ih =>
    rw [List.length_cons, List.range_succ_eq_map]
    cases h : inSlice e lo hi <;>
      simp [List.filter_cons, List.filter_map, Function.comp_def, List.map_map, h,
        List.getD_eq_getElem?_getD, ← ih]

theorem bumpEff_length (evts : List DBEvent) (j : Nat) :
    (bumpEff evts j).length = evts.length := by
  unfold bumpEff
  cases h : evts[j]? <;> simp

theorem effAt_bumpEff (evts : List DBEvent) (i j : Nat) :
    effAt (bumpEff evts i) j =
      effAt evts j + (if i = j ∧ j < evts.length then 1 else 0) := by
  unfold bumpEff effAt
  cases h : evts[i]? with
  | none =>
    have hi : evts.length ≤ i := by
      by_contra hcon
      rw [List.getElem?_eq_getElem (by omega)] at h
      cases h
    have hcond : ¬(i = j ∧ j < evts.length) := by omega
    simp [hcond]
  | some e =>
    have hi : i < evts.length := by
      by_contra hcon
      rw [List.getElem?_eq_none (by omega)] at h
      cases h
    have he : evts.getD i default = e := by
      simp [List.getD_eq_getElem?_getD, h]
    by_cases hij : i = j
    · subst hij
      have hset : (evts.set i { e with effectiveDuration := e.effectiveDuration + 1 }).getD i default
          = { e with effectiveDuration := e.effectiveDuration + 1 } := by
        simp [List.getD_eq_getElem?_getD, List.getElem?_set_eq_of_lt _ hi]
      rw [hset, he]
      simp [hi]
    · have hset : (evts.set i { e with effectiveDuration := e.effectiveDuration + 1 }).getD j default
          = evts.getD j default := by
        simp [List.getD_eq_getElem?_getD, List.getElem?_set_ne hij]
      rw [hset]
      simp [hij]

theorem allocRR_effAt (act : List Nat) (hnd : act.Nodup) (p : Nat) (hp : p < act.length) :
    ∀ (T idx : Nat) (evts : List DBEvent), idx < act.length →
      (∀ i ∈ act, i < evts.length) →
      effAt (allocRR act idx evts T) (act.getD p 0) =
        effAt evts (act.getD p 0) + rrHits act.length idx p T := by
  intro T
  induction T with
  | zero => intro idx evts _ _; simp [allocRR, rrHits]
  | succ T ih =>
    intro idx evts hidx hlen
    have hget : act[idx]? = some (act.getD idx 0) := by
      rw [List.getD_eq_getElem?_getD, List.getElem?_eq_getElem hidx]
      simp [List.getElem?_eq_getElem hidx]
    rw [allocRR, hget]
    have hidx' : (idx + 1) % act.length < act.length := Nat.mod_lt _ (by omega)
    have hlen' : ∀ i ∈ act, i < (bumpEff evts (act.getD idx 0)).length := by
      intro i hi; rw [bumpEff_length]; exact hlen i hi
    rw [ih ((idx + 1) % act.length) _ hidx' hlen']
    rw [effAt_bumpEff]
    have hmem : act.getD p 0 ∈ act := by
      rw [List.getD_eq_getElem?_getD, List.getElem?_eq_getElem hp]
      exact List.getElem_mem _
    have hplen : act.getD p 0 < evts.length := hlen _ hmem
    have hiff : (act.getD idx 0 = act.getD p 0) ↔ idx = p := by
      constructor
      · intro h
        rw [List.getD_eq_getElem?_getD, List.getElem?_eq_getElem hidx] at h
        rw [List.getD_eq_getElem?_getD, List.getElem?_eq_getElem hp] at h
        simp at h
        exact (List.Nodup.getElem_inj_iff hnd).mp h
      · intro h; subst h; rfl
    rw [rrHits]
    have hifeq : (if act.getD idx 0 = act.getD p 0 ∧ act.getD p 0 < evts.length then 1 else 0)
        = (if idx = p then 1 else 0) := by
      by_cases hip : idx = p
      · rw [if_pos ⟨hiff.mpr hip, hplen⟩, if_pos hip]
      · rw [if_neg (fun hc => hip (hiff.mp hc.1)), if_neg hip]
    rw [hifeq]
    omega

theorem rrHits_eq_countP (n p : Nat) :
    ∀ (T idx : Nat), idx < n →
      rrHits n idx p T = (List.range T).countP (fun k => decide ((idx + k) % n = p)) := by
  intro T
  induction T with
  | zero => intro idx _; simp [rrHits]
  | succ T ih =>
    intro idx hidx
    rw [rrHits, List.range_succ_eq_map, List.countP_cons, List.countP_map]
    have hidx' : (idx + 1) % n < n := Nat.mod_lt _ (by omega)
    rw [ih ((idx + 1) % n) hidx']
    have hfun : ((fun k => decide ((idx + k) % n = p)) ∘ Nat.succ) =
        (fun k => decide (((idx + 1) % n + k) % n = p)) := by
      funext k
      simp only [Function.comp_apply]
      congr 1
      rw [Nat.mod_add_mod]
      have harg : (idx + 1) + k = idx + Nat.succ k := by omega
      rw [harg]
    rw [← hfun]
    have hmod : (idx + 0) % n = idx := by
      rw [Nat.add_zero, Nat.mod_eq_of_lt hidx]
    simp only [hmod, decide_eq_true_eq]
    split_ifs <;> omega

theorem countP_mod_range (n p : Nat) (hp : p < n) (T : Nat) :
    (List.range T).countP (fun k => decide (k % n = p)) =
      T / n + (if p < T % n then 1 else 0) := by
  induction T with
  | zero => simp
  | succ T ih =>
    rw [List.range_succ, List.countP_append, ih]
    have hn : 0 < n := by omega
    have hr : T % n < n := Nat.mod_lt _ hn
    have hsucc : (T + 1) % n = if T % n + 1 = n then 0 else T % n + 1 := by
      conv_lhs => rw [← Nat.mod_add_mod]
      by_cases h : T % n + 1 = n
      · rw [if_pos h, h, Nat.mod_self]
      · rw [if_neg h, Nat.mod_eq_of_lt (by omega)]
    have hA : ((T % n + 1 = n) ∧ (T + 1) % n = 0) ∨
        ((T % n + 1 ≠ n) ∧ (T + 1) % n = T % n + 1) := by
      by_cases h : T % n + 1 = n
      · exact Or.inl ⟨h, by rw [hsucc, if_pos h]⟩
      · exact Or.inr ⟨h, by rw [hsucc, if_neg h]⟩
    have hB : (T + 1) / n = T / n + if n ∣ (T + 1) then 1 else 0 := Nat.succ_div T n
    have hB' : ((T + 1) % n = 0 ∧ (T + 1) / n = T / n + 1) ∨
        ((T + 1) % n ≠ 0 ∧ (T + 1) / n = T / n) := by
      by_cases h : n ∣ (T + 1)
      · exact Or.inl ⟨Nat.dvd_iff_mod_eq_zero.mp h, by rw [hB, if_pos h]⟩
      · exact Or.inr ⟨fun hc => h (Nat.dvd_iff_mod_eq_zero.mpr hc), by rw [hB, if_neg h]; omega⟩
    simp only [List.countP_cons, List.countP_nil, decide_eq_true_eq, Nat.zero_add]
    split_ifs <;> omega

theorem activeIndices_nodup (evts : List DBEvent) (lo hi : Int) :
    (activeIndices evts lo hi).Nodup :=
  List.Nodup.filter _ (List.nodup_range _)

theorem activeIndices_lt_length (evts : List DBEvent) (lo hi : Int) :
    ∀ i ∈ activeIndices evts lo hi, i < evts.length := by
  intro i hi
  have := List.of_mem_filter hi
  exact List.mem_range.mp (List.mem_of_mem_filter hi)

/-! ### Claim C4: round-robin fairness within a slice -/

/-- **C4** (confirmed): for any slice handled by the allocation loop
(active events `activeIndices evts lo hi`, remaining rational
duration `dur`, rotation starting at index 0 as in
`recalculateDurations`), the minutes allocated within the slice to one
active event exceed those allocated to any other active event by at
most 1. -/
theorem C4_round_robin_fairness (evts : List DBEvent) (lo hi : Int) (dur : ℚ)
    (p q : Nat) (hp : p < (activeIndices evts lo hi).length)
    (hq : q < (activeIndices evts lo hi).length) :
    effAt (allocLoop (activeIndices evts lo hi) 0 evts dur)
        ((activeIndices evts lo hi).getD p 0) -
      effAt evts ((activeIndices evts lo hi).getD p 0) ≤
    (effAt (allocLoop (activeIndices evts lo hi) 0 evts dur)
        ((activeIndices evts lo hi).getD q 0) -
      effAt evts ((activeIndices evts lo hi).getD q 0)) + 1 := by
  have hnd := activeIndices_nodup evts lo hi
  have hlen := activeIndices_lt_length evts lo hi
  have hn0 : 0 < (activeIndices evts lo hi).length := by omega
  rw [allocLoop_eq_allocRR]
  rw [allocRR_effAt _ hnd p hp _ 0 evts hn0 hlen]
  rw [allocRR_effAt _ hnd q hq _ 0 evts hn0 hlen]
  rw [rrHits_eq_countP _ p _ 0 hn0, rrHits_eq_countP _ q _ 0 hn0]
  have hzero : ∀ r : Nat, (fun k => decide ((0 + k) % (activeIndices evts lo hi).length = r)) =
      (fun k => decide (k % (activeIndices evts lo hi).length = r)) := by
    intro r; funext k; rw [Nat.zero_add]
  rw [hzero p, hzero q]
  rw [countP_mod_range _ p hp, countP_mod_range _ q hq]
  split_ifs <;> omega

/-- Witness for C4 at the concrete shared slice `[09:30, 10:00)` of
the events of C2. -/
theorem C4_round_robin_fairness_witness :
    effAt (allocLoop (activeIndices [eventA, eventB] 34200000 36000000) 0 [eventA, eventB] 30)
        ((activeIndices [eventA, eventB] 34200000 36000000).getD 0 0) -
      effAt [eventA, eventB] ((activeIndices [eventA, eventB] 34200000 36000000).getD 0 0) ≤
    (effAt (allocLoop (activeIndices [eventA, eventB] 34200000 36000000) 0 [eventA, eventB] 30)
        ((activeIndices [eventA, eventB] 34200000 36000000).getD 1 0) -
      effAt [eventA, eventB] ((activeIndices [eventA, eventB] 34200000 36000000).getD 1 0)) + 1 :=
  C4_round_robin_fairness [eventA, eventB] 34200000 36000000 30 0 1 (by decide) (by decide)

/-! ### Claim C2: the concrete two-event scenario -/

set_option maxRecDepth 20000 in
/-- **C2** (confirmed): with exactly events A = `[09:00,10:00)` and
B = `[09:30,10:30)` as the fetched set, the engine computes the
boundary list `[09:00, 09:30, 10:00, 10:30]` and ends with
`A.effectiveDuration = 45` and `B.effectiveDuration = 45`. -/
theorem C2_two_event_allocation :
    _getAllBoundaries [eventA, eventB] =
        [32400000, 34200000, 36000000, 37800000] ∧
      (recalcCore [eventA, eventB]).map (·.effectiveDuration) = [45, 45] := by
  refine ⟨by decide, ?_⟩
  rw [recalcCore_eq_recalcRR]
  decide

/-- **C7 counterexample**: on a run whose two phases have 1 item each,
the final (`completed == total`) invocation of each phase exists in the
call sequence but nothing at all is delivered to `onProgress`: the
100% call *is* skipped by the throttle. -/
theorem C7_counterexample :
    progressCalls [eventC7] =
        [("splitting_boundaries", 1, 1), ("updating_database", 1, 1)] ∧
      progressTrace [eventC7] = [] := by
  constructor <;> decide

theorem le_fst_of_mem_enumFrom {p : Nat × α} :
    ∀ {l : List α} {n : Nat}, p ∈ List.enumFrom n l → n ≤ p.1 := by
  intro l
  induction l with
  | nil => intro n h; cases h
  | cons x rest ih =>
    intro n h
    rw [show List.enumFrom n (x :: rest) = (n, x) :: List.enumFrom (n + 1) rest from rfl,
      List.mem_cons] at h
    rcases h with h | h
    · rw [h]
    · have := ih h
      omega

theorem runThrottle_eq_filter (l : List α) :
    ∀ (c k : Nat), c ≤ 10 →
      runThrottle c l =
        ((List.enumFrom k l).filter
            (fun p => decide ((c + (p.1 - k) + 1) % 11 = 0))).map (·.2) := by
  induction l with
  | nil => intro c k _; simp [runThrottle]
  | cons x rest ih =>
    intro c k hc
    rw [runThrottle,
      show List.enumFrom k (x :: rest) = (k, x) :: List.enumFrom (k + 1) rest from rfl,
      List.filter_cons]
    by_cases h : c < 10
    · have hskip : _updateProgress c = (c + 1, false) := by
        unfold _updateProgress
        rw [if_pos h]
      rw [hskip]
      dsimp only
      rw [if_neg Bool.false_ne_true]
      rw [ih (c + 1) (k + 1) (by omega)]
      have hhead : (decide ((c + (k - k) + 1) % 11 = 0)) = false := by
        simp only [Nat.sub_self, decide_eq_false_iff_not]
        omega
      rw [hhead, if_neg Bool.false_ne_true]
      congr 1
      refine List.filter_congr ?_
      intro p hp
      have hk := le_fst_of_mem_enumFrom hp
      exact decide_eq_decide.mpr (by omega)
    · have hc10 : c = 10 := by omega
      subst hc10
      have hdel : _updateProgress 10 = (0, true) := by
        unfold _updateProgress
        rw [if_neg (by omega)]
      rw [hdel]
      dsimp only
      rw [if_pos rfl]
      rw [ih 0 (k + 1) (by omega)]
      have hhead : (decide ((10 + (k - k) + 1) % 11 = 0)) = true := by
        simp only [Nat.sub_self, decide_eq_true_eq]
      rw [hhead, if_pos rfl, List.map_cons]
      refine congrArg (x :: ·) ?_
      refine congrArg _ ?_
      refine List.filter_congr ?_
      intro p hp
      have hk := le_fst_of_mem_enumFrom hp
      exact decide_eq_decide.mpr (by omega)

/-- **C7 amended** (the claim as forced by the counterexample): with a
fresh service, the delivered progress invocations are exactly every
11th invocation of `_updateProgress`, counting continuously across the
two phases; a `completed == total` invocation is delivered only when
its overall position is a multiple of 11. -/
theorem C7_amended_throttle_exact (events : List DBEvent) :
    progressTrace events = everyNth 11 (progressCalls events) := by
  unfold progressTrace everyNth
  rw [runThrottle_eq_filter _ 0 0 (by omega),
    show (progressCalls events).enum = List.enumFrom 0 (progressCalls events) from rfl]
  congr 1
  refine List.filter_congr ?_
  intro p _
  exact decide_eq_decide.mpr (by omega)

theorem circularWalk_reaches (store : List Category) (a : String) (ha : a ≠ "") :
    ∀ (n : Nat) (b : String) (fuel : Nat), descendsIn store a n b → n < fuel →
      circularWalk store a fuel (some b) = true := by
  intro n
  induction n with
  | zero =>
    intro b fuel hdesc hfuel
    obtain ⟨f, rfl⟩ : ∃ f, fuel = f + 1 := ⟨fuel - 1, by omega⟩
    rw [show b = a from hdesc, circularWalk]
    rw [if_neg ha, if_pos rfl]
  | succ n ih =>
    intro b fuel hdesc hfuel
    obtain ⟨f, rfl⟩ : ∃ f, fuel = f + 1 := ⟨fuel - 1, by omega⟩
    obtain ⟨hb, c, next, hc, hpar, hrest⟩ := hdesc
    rw [circularWalk, if_neg hb]
    by_cases hba : b = a
    · rw [if_pos hba]
    · rw [if_neg hba, hc]
      dsimp only
      rw [hpar]
      exact ih next f hrest (by omega)

/-- **C8** (confirmed): if B equals A or is a stored descendant of A
(with a parent chain of truthy ids shorter than the available fuel),
then both `moveCategory(A, B)` and `updateCategory(A, {parent: B})`
throw the circular-reference error and return the category table
unchanged: the error is raised before any write. -/
theorem C8_no_cycle_atomic (fuel : Nat) (store : List Category) (a b : String) (n : Nat)
    (ha : a ≠ "") (hdesc : descendsIn store a n b) (hfuel : n < fuel) :
    moveCategory fuel store a (some b) =
        (store, Except.error "Cannot move category: would create circular reference") ∧
      updateCategory fuel store a { parentCategoryId := some b } =
        (store, Except.error "Cannot set parent category: would create circular reference") := by
  have hb : b ≠ "" := by
    cases n with
    | zero => rw [show b = a from hdesc]; exact ha
    | succ n => exact hdesc.1
  have hcirc : wouldCreateCircularReference fuel store a b = true := by
    unfold wouldCreateCircularReference
    by_cases hab : a = b
    · rw [if_pos hab]
    · rw [if_neg hab]
      exact circularWalk_reaches store a ha n b fuel hdesc hfuel
  constructor
  · unfold moveCategory
    rw [if_pos (show strTruthy (some b) = true by simp [strTruthy, hb])]
    rw [if_pos (show wouldCreateCircularReference fuel store a ((some b).getD "") = true from hcirc)]
  · unfold updateCategory
    rw [if_pos ⟨show strTruthy (some b) = true by simp [strTruthy, hb],
      show wouldCreateCircularReference fuel store a ((some b).getD "") = true from hcirc⟩]

/-- Witness for C8: moving X under its child Y throws in both entry
points and leaves the table untouched. -/
theorem C8_no_cycle_atomic_witness :
    moveCategory 3 [catX, catY] "X" (some "Y") =
        ([catX, catY], Except.error "Cannot move category: would create circular reference") ∧
      updateCategory 3 [catX, catY] "X" { parentCategoryId := some "Y" } =
        ([catX, catY], Except.error "Cannot set parent category: would create circular reference") :=
  C8_no_cycle_atomic 3 [catX, catY] "X" "Y" 1 (by decide)
    ⟨by decide, catY, "X", by decide, by decide, rfl⟩ (by decide)

/-- **C10** (confirmed): `moveCategory(id, null)` skips the circular
check, passes `parentCategoryId: undefined` to `updateCategory`, whose
update-set then contains no field at all — the stored table (the
parent id and every other column of every category) is unchanged; a
nested category is never moved to the root this way. -/
theorem C10_moveCategory_null_noop (fuel : Nat) (store : List Category) (categoryId : String) :
    moveCategory fuel store categoryId none =
      (store, Except.ok (store.find? (fun c => c.id = categoryId))) := by
  unfold moveCategory
  rw [if_neg (by simp [strTruthy])]
  unfold updateCategory
  rw [if_neg (by simp [strTruthy])]
  have hmap : store.map (fun c => if c.id = categoryId then applyUpdate c {} else c) = store := by
    have : ∀ c : Category, (if c.id = categoryId then applyUpdate c {} else c) = c := by
      intro c
      have happ : applyUpdate c {} = c := rfl
      rw [happ, ite_self]
    rw [List.map_congr_left (fun c _ => this c)]
    exact List.map_id _
  simp only [hmap]

/-! ### Claim C5: manual override immunity -/

theorem getD_map (f : DBEvent → DBEvent) (store : List DBEvent) (i : Nat) (d : DBEvent)
    (h : i < store.length) : (store.map f).getD i (f d) = f (store.getD i d) := by
  rw [List.getD_eq_getElem?_getD, List.getD_eq_getElem?_getD,
    List.getElem?_eq_getElem h, List.getElem?_eq_getElem (by simpa using h)]
  simp

theorem dbUpdateWhere_getD_ne (c : DBEvent → Bool) (f : DBEvent → DBEvent)
    (store : List DBEvent) (i : Nat)
    (h : c (store.getD i default) = false) :
    (dbUpdateWhere c f store).getD i default = store.getD i default := by
  by_cases hi : i < store.length
  · unfold dbUpdateWhere
    rw [List.getD_eq_getElem?_getD, List.getElem?_eq_getElem (by simpa using hi)]
    simp only [List.getElem_map, Option.getD_some]
    rw [List.getD_eq_getElem?_getD, List.getElem?_eq_getElem hi]
    simp only [Option.getD_some]
    have hgetd : store.getD i default = store[i] := by
      rw [List.getD_eq_getElem?_getD, List.getElem?_eq_getElem hi]
      rfl
    rw [hgetd] at h
    rw [h]
    simp
  · have h1 : store.length ≤ i := by omega
    rw [List.getD_eq_default _ _ (by simpa [dbUpdateWhere] using h1),
      List.getD_eq_default _ _ h1]

theorem dbUpdateWhere_map_id (c : DBEvent → Bool) (f : DBEvent → DBEvent)
    (store : List DBEvent) (hf : ∀ e, (f e).id = e.id) :
    (dbUpdateWhere c f store).map (fun e => e.id) = store.map (fun e => e.id) := by
  unfold dbUpdateWhere
  rw [List.map_map]
  refine List.map_congr_left ?_
  intro e _
  by_cases h : c e
  · simp [h, hf]
  · simp [h]

/-- `categorizeEvent` only updates rows whose id equals the processed
event's id. -/
theorem categorizeEvent_row_frame (rt : String → String → Bool) (cats : List Category)
    (st : List DBEvent) (ev : DBEvent) (i : Nat)
    (hdiff : (st.getD i default).id ≠ ev.id) :
    ((categorizeEvent rt cats st ev).1).getD i default = st.getD i default := by
  have hbeq : ((st.getD i default).id == ev.id) = false := by
    simpa using hdiff
  unfold categorizeEvent
  split
  · rfl
  · split
    · exact dbUpdateWhere_getD_ne _ _ _ _ hbeq
    · split
      · exact dbUpdateWhere_getD_ne _ _ _ _ hbeq
      · rfl

/-- An event marked manually categorized is returned without any
store write. -/
theorem categorizeEvent_manual_noop (rt : String → String → Bool) (cats : List Category)
    (st : List DBEvent) (ev : DBEvent)
    (h : boolTruthy ev.isManuallyCategorized = true) :
    (categorizeEvent rt cats st ev).1 = st := by
  unfold categorizeEvent
  rw [if_pos h]

theorem fold_categorizeEvent_frame (rt : String → String → Bool) (cats : List Category)
    (rid : String) :
    ∀ (evl : List DBEvent) (st : List DBEvent) (i : Nat),
      (st.getD i default).id = rid →
      (∀ ev ∈ evl, boolTruthy ev.isManuallyCategorized = true ∨ ev.id ≠ rid) →
      (evl.foldl (fun s ev => (categorizeEvent rt cats s ev).1) st).getD i default =
        st.getD i default := by
  intro evl
  induction evl with
  | nil => intro st i _ _; rfl
  | cons ev rest ih =>
    intro st i hrid hP
    rw [List.foldl_cons]
    have hstep : ((categorizeEvent rt cats st ev).1).getD i default = st.getD i default := by
      rcases hP ev (by simp) with h | h
      · rw [categorizeEvent_manual_noop rt cats st ev h]
      · exact categorizeEvent_row_frame rt cats st ev i (by rw [hrid]; exact fun hc => h hc.symm)
    rw [ih _ i (by rw [hstep, hrid]) (fun x hx => hP x (by simp [hx])), hstep]

/-- The store component of the `categorizeEvents` fold ignores the
stats component. -/
theorem foldl_categorizeStep_fst (rt : String → String → Bool) (cats : List Category) :
    ∀ (l : List DBEvent) (acc : List DBEvent × CategorizationStats),
      (l.foldl (categorizeStep rt cats) acc).1 =
        l.foldl (fun s ev => (categorizeEvent rt cats s ev).1) acc.1 := by
  intro l
  induction l with
  | nil => intro acc; rfl
  | cons ev rest ih =>
    intro acc
    rw [List.foldl_cons, List.foldl_cons, ih]
    have : (categorizeStep rt cats acc ev).1 = (categorizeEvent rt cats acc.1 ev).1 := by
      unfold categorizeStep
      dsimp only
      split <;> rfl
    rw [this]

/-- Two rows of an id-unique table with the same id are the same row. -/
theorem row_eq_of_id_eq (store : List DBEvent)
    (hnd : (store.map (fun e => e.id)).Nodup) {a b : DBEvent}
    (ha : a ∈ store) (hb : b ∈ store) (hid : a.id = b.id) : a = b :=
  List.inj_on_of_nodup_map hnd ha hb hid

theorem getD_mem (store : List DBEvent) (i : Nat) (h : i < store.length) :
    store.getD i default ∈ store := by
  rw [List.getD_eq_getElem?_getD, List.getElem?_eq_getElem h]
  exact List.getElem_mem _

/-- **C5** (confirmed): a row whose `isManuallyCategorized` flag is
`true` is never written by `categorizeEvents` (with or without an
explicit id list) nor by `recategorizeEventsForCategory`: the stored
row — in particular its `categoryId` and `isManuallyCategorized` —
is unchanged (ids are unique, as the table's primary key guarantees). -/
theorem C5_manual_override_immunity (rt : String → String → Bool) (cats : List Category)
    (store : List DBEvent) (i : Nat) (eventIds : Option (List String)) (categoryId : String)
    (hnd : (store.map (fun e => e.id)).Nodup)
    (hman : (store.getD i default).isManuallyCategorized = some true) :
    ((categorizeEvents rt cats store eventIds).1).getD i default = store.getD i default ∧
      ((recategorizeEventsForCategory rt cats store categoryId).1).getD i default =
        store.getD i default := by
  have hi : i < store.length := by
    by_contra hcon
    rw [List.getD_eq_default _ _ (by omega)] at hman
    cases hman
  have hrowmem : store.getD i default ∈ store := getD_mem store i hi
  have hrowflag := hman
  constructor
  · unfold categorizeEvents
    rw [foldl_categorizeStep_fst]
    refine fold_categorizeEvent_frame rt cats (store.getD i default).id _ store i rfl ?_
    intro ev hev
    by_cases hm : boolTruthy ev.isManuallyCategorized = true
    · exact Or.inl hm
    · refine Or.inr (fun hc => ?_)
      have hevmem : ev ∈ store := by
        cases eventIds with
        | some ids => exact List.mem_of_mem_filter hev
        | none => exact List.mem_of_mem_filter hev
      have := row_eq_of_id_eq store hnd hevmem hrowmem hc
      rw [this, hrowflag] at hm
      exact hm rfl
  · unfold recategorizeEventsForCategory
    simp only
    set catEvents := store.filter
      (fun e => e.categoryId == some categoryId && e.isManuallyCategorized == some false)
      with hcatEvents
    set cleared := dbUpdateWhere
      (fun e => (catEvents.map (fun e => e.id)).contains e.id)
      (fun e => { e with categoryId := none, isManuallyCategorized := none }) store
      with hcleared
    have hcatflag : ∀ ev ∈ catEvents, ev.isManuallyCategorized = some false := by
      intro ev hev
      have := List.of_mem_filter hev
      simp only [Bool.and_eq_true, beq_iff_eq] at this
      exact this.2
    have hcatne : ∀ ev ∈ catEvents, ev.id ≠ (store.getD i default).id := by
      intro ev hev hc
      have hevmem : ev ∈ store := List.mem_of_mem_filter hev
      have heq := row_eq_of_id_eq store hnd hevmem hrowmem hc
      have hf := hcatflag ev hev
      rw [heq, hrowflag] at hf
      simp at hf
    have hclr : cleared.getD i default = store.getD i default := by
      rw [hcleared]
      refine dbUpdateWhere_getD_ne _ _ _ _ (Bool.eq_false_iff.mpr ?_)
      intro htrue
      have hmem : (store.getD i default).id ∈ catEvents.map (fun e => e.id) := by
        simpa using htrue
      obtain ⟨ev, hev, hid⟩ := List.mem_map.mp hmem
      exact hcatne ev hev hid
    have hfold := List.foldl_map
      (fun ev : DBEvent => { ev with categoryId := none, isManuallyCategorized := none })
      (fun s ev => (categorizeEvent rt cats s ev).1) catEvents cleared
    rw [← hfold]
    rw [fold_categorizeEvent_frame rt cats (store.getD i default).id _ _ i
      (by rw [hclr]) ?_, hclr]
    intro ev' hev'
    obtain ⟨ev, hev, rfl⟩ := List.mem_map.mp hev'
    exact Or.inr (hcatne ev hev)

/-- Witness for C5 on a one-row table holding a manually categorized
event. -/
theorem C5_manual_override_immunity_witness :
    ((categorizeEvents rtNone [] [manualEvent] none).1).getD 0 default =
        [manualEvent].getD 0 default ∧
      ((recategorizeEventsForCategory rtNone [] [manualEvent] "cat1").1).getD 0 default =
        [manualEvent].getD 0 default :=
  C5_manual_override_immunity rtNone [] [manualEvent] 0 none "cat1" (by decide) (by decide)

/-! ### Claim C6: first-match-wins classification -/

/-- The nested first-match loop is the first category (in
`getCategories` order) whose rule list has a matching rule, paired
with the first matching rule of that category. -/
theorem firstMatch_eq_find (rt : String → String → Bool) (ev : DBEvent) :
    ∀ l : List Category, firstMatch rt ev l =
      match l.find? (fun c => (c.rules.getD []).any (fun r => eventMatchesRule rt ev r)) with
      | none => none
      | some c =>
        ((c.rules.getD []).find? (fun r => eventMatchesRule rt ev r)).map (fun r => (c, r)) := by
  intro l
  induction l with
  | nil => rfl
  | cons cat rest ih =>
    rw [firstMatch]
    cases hr : cat.rules with
    | none =>
      have hpred : ((cat.rules.getD []).any (fun r => eventMatchesRule rt ev r)) = false := by
        rw [hr]
        rfl
      dsimp only
      rw [List.find?_cons_of_neg _ (by simp [hpred]), ih]
    | some rules =>
      dsimp only
      by_cases he : rules.isEmpty
      · have hrules : rules = [] := List.isEmpty_iff.mp he
        have hpred : ((cat.rules.getD []).any (fun r => eventMatchesRule rt ev r)) = false := by
          rw [hr, hrules]
          rfl
        rw [if_pos he, List.find?_cons_of_neg _ (by simp [hpred]), ih]
      · rw [if_neg he]
        cases hf : rules.find? (fun r => eventMatchesRule rt ev r) with
        | some r =>
          have hpred : ((cat.rules.getD []).any (fun r => eventMatchesRule rt ev r)) = true := by
            rw [hr]
            exact List.any_eq_true.mpr
              ⟨r, List.mem_of_find?_eq_some hf, List.find?_some hf⟩
          rw [List.find?_cons_of_pos _ (by simp [hpred])]
          dsimp only
          rw [hr]
          simp only [Option.getD_some, hf]
          rfl
        | none =>
          have hpred : ((cat.rules.getD []).any (fun r => eventMatchesRule rt ev r)) = false := by
            rw [hr]
            simp only [Option.getD_some]
            rw [List.any_eq_false]
            intro r hrm
            have := List.find?_eq_none.mp hf r hrm
            simpa using this
          rw [List.find?_cons_of_neg _ (by simp [hpred]), ih]

/-- **C6** (confirmed): for a non-manually-categorized event, if `c`
is the first category — in `getCategories` order: descending priority,
ties by ascending name — with a rule matching the title, then
`categorizeEvent` assigns `c.id`, reports the first matching rule of
`c`, sets `isManuallyCategorized = false` and writes exactly that to
the event's row.  (Determinism is immediate: the embedding is a pure
function of the category list, the store and the event.) -/
theorem C6_first_match_wins (rt : String → String → Bool) (cats : List Category)
    (store : List DBEvent) (event : DBEvent) (c : Category)
    (hman : boolTruthy event.isManuallyCategorized = false)
    (hfound : (getCategories cats).find?
        (fun cc => (cc.rules.getD []).any (fun r => eventMatchesRule rt event r)) = some c) :
    (categorizeEvent rt cats store event).2.categoryId = some c.id ∧
      (categorizeEvent rt cats store event).2.matchedRule =
        (c.rules.getD []).find? (fun r => eventMatchesRule rt event r) ∧
      (categorizeEvent rt cats store event).2.isManuallyCategorized = some false ∧
      (categorizeEvent rt cats store event).1 =
        dbUpdateWhere (fun e => e.id == event.id)
          (fun e => { e with categoryId := some c.id, isManuallyCategorized := some false })
          store := by
  have hfm := firstMatch_eq_find rt event (getCategories cats)
  rw [hfound] at hfm
  dsimp only at hfm
  have hpred : ((c.rules.getD []).any (fun r => eventMatchesRule rt event r)) = true := by
    have h := List.find?_some hfound
    exact h
  obtain ⟨r, hrmem, hrmatch⟩ := List.any_eq_true.mp hpred
  obtain ⟨r0, hr0⟩ : ∃ r0, (c.rules.getD []).find? (fun r => eventMatchesRule rt event r) = some r0 := by
    cases hx : (c.rules.getD []).find? (fun r => eventMatchesRule rt event r) with
    | some r0 => exact ⟨r0, rfl⟩
    | none =>
      have := List.find?_eq_none.mp hx r hrmem
      simp [hrmatch] at this
  rw [hr0] at hfm
  have hfm' : firstMatch rt event (getCategories cats) = some (c, r0) := by
    rw [hfm]
    rfl
  unfold categorizeEvent
  rw [if_neg (by rw [hman]; exact Bool.false_ne_true), hfm']
  exact ⟨rfl, by rw [hr0], rfl, rfl⟩

/-- Witness for C6: "Team meeting" is assigned to the priority-10
"Work" category whose CONTAINS rule matches first. -/
theorem C6_first_match_wins_witness :
    (categorizeEvent rtNone [catPersonal, catWork] [meetingEvent] meetingEvent).2.categoryId =
        some catWork.id ∧
      (categorizeEvent rtNone [catPersonal, catWork] [meetingEvent] meetingEvent).2.matchedRule =
        (catWork.rules.getD []).find? (fun r => eventMatchesRule rtNone meetingEvent r) ∧
      (categorizeEvent rtNone [catPersonal, catWork] [meetingEvent] meetingEvent).2.isManuallyCategorized =
        some false ∧
      (categorizeEvent rtNone [catPersonal, catWork] [meetingEvent] meetingEvent).1 =
        dbUpdateWhere (fun e => e.id == meetingEvent.id)
          (fun e => { e with categoryId := some catWork.id, isManuallyCategorized := some false })
          [meetingEvent] :=
  C6_first_match_wins rtNone [catPersonal, catWork] [meetingEvent] meetingEvent catWork
    rfl (by decide)

/-- Every width pushed by `layDown` is the start width minus a
multiple of `1 / n` below the list length. -/
theorem layDown_mem (n : Nat) :
    ∀ (l : List LEvent) (w : ℚ) (b : EventBlockData), b ∈ layDown n l w →
      ∃ k : Nat, k < l.length ∧ b.width = w - (k : ℚ) * (1 / (n : ℚ)) := by
  intro l
  induction l with
  | nil => intro w b hb; cases hb
  | cons e rest ih =>
    intro w b hb
    rw [layDown, List.mem_cons] at hb
    rcases hb with hb | hb
    · exact ⟨0, by simp, by rw [hb]; simp⟩
    · obtain ⟨k, hk, hw⟩ := ih (w - 1 / (n : ℚ)) b hb
      refine ⟨k + 1, by simpa using hk, ?_⟩
      rw [hw]
      push_cast
      ring

/-- All widths stored by the activation loop, and all widths already
in the map, lie in `(0, 1]`. -/
theorem processStarts_inv :
    ∀ (sids : List String) (acc : List String × List (String × ℚ)),
      (∀ p ∈ acc.2, 0 < p.2 ∧ p.2 ≤ 1) →
      ∀ p ∈ (processStarts acc sids).2, 0 < p.2 ∧ p.2 ≤ 1 := by
  intro sids
  induction sids with
  | nil => intro acc hinv p hp; exact hinv p hp
  | cons sid rest ih =>
    intro acc hinv p hp
    rw [processStarts] at hp
    refine ih _ ?_ p hp
    intro q hq
    have hwb : (0 : ℚ) < (if acc.1.length < 4 then 1 - (acc.1.length : ℚ) * (1 / 4) else 1 / 4) ∧
        (if acc.1.length < 4 then 1 - (acc.1.length : ℚ) * (1 / 4) else 1 / 4) ≤ 1 := by
      split
      · rename_i hlt
        have : (acc.1.length : ℚ) ≤ 3 := by exact_mod_cast Nat.lt_succ_iff.mp hlt
        have h0 : (0 : ℚ) ≤ (acc.1.length : ℚ) := by positivity
        constructor <;> nlinarith
      · norm_num
    have hq' : q ∈ wmSet acc.2 sid
        (if acc.1.length < 4 then 1 - (acc.1.length : ℚ) * (1 / 4) else 1 / 4) := hq
    unfold wmSet at hq'
    split at hq'
    · obtain ⟨q0, hq0, hqeq⟩ := List.mem_map.mp hq'
      by_cases hk : q0.1 == sid
      · rw [if_pos hk] at hqeq
        rw [← hqeq]
        exact hwb
      · rw [if_neg (by simpa using hk)] at hqeq
        exact hqeq ▸ hinv q0 hq0
    · rw [List.mem_append] at hq'
      rcases hq' with hq' | hq'
      · exact hinv q hq'
      · rw [List.mem_singleton] at hq'
        rw [hq']
        exact hwb

/-- The sweep only ever stores widths in `(0, 1]`. -/
theorem generalWidths_inv (group : List LEvent) :
    ∀ p ∈ generalWidths group, 0 < p.2 ∧ p.2 ≤ 1 := by
  unfold generalWidths
  generalize boundKeys group = keys
  have main : ∀ (keys : List Int) (acc : List String × List (String × ℚ)),
      (∀ p ∈ acc.2, 0 < p.2 ∧ p.2 ≤ 1) →
      ∀ p ∈ (keys.foldl (sweepKey group) acc).2, 0 < p.2 ∧ p.2 ≤ 1 := by
    intro keys
    induction keys with
    | nil => intro acc hinv p hp; exact hinv p hp
    | cons t rest ih =>
      intro acc hinv p hp
      rw [List.foldl_cons] at hp
      refine ih _ ?_ p hp
      unfold sweepKey
      exact processStarts_inv _ _ hinv
  intro p hp
  exact main keys ([], []) (by intro p hp; cases hp) p hp

/-- **C9** (confirmed): on any start-sorted list of events with
non-null times, every width computed by `groupEvents` lies in `(0, 1]`
— across the singleton branch, the identical-start/end branch and the
general sweep branch including its missing-width fallback. -/
theorem C9_packing_width_bounds (events : List LEvent)
    (_hsorted : events.Pairwise (fun a b => a.start ≤ b.start)) :
    ∀ b ∈ groupEvents events, 0 < b.width ∧ b.width ≤ 1 := by
  clear _hsorted
  unfold groupEvents
  split
  · intro b hb; cases hb
  · generalize (buildGroupsRev events).reverse = groups
    have main : ∀ (gl : List (List LEvent)) (out : List EventBlockData),
        (∀ b ∈ out, 0 < b.width ∧ b.width ≤ 1) →
        ∀ b ∈ gl.foldl
          (fun out group =>
            if group.length = 1 then
              out ++ group.map (fun e => { event := e, width := 1 })
            else if ((group.map (fun e => e.start)).dedup.length == 1) &&
                ((group.map (fun e => e.«end»)).dedup.length == 1) then
              out ++ layDownEqualDurationEvents group
            else
              out ++ group.map
                (fun e => { event := e, width := widthFallback (wmGet (generalWidths group) e.id) }))
          out, 0 < b.width ∧ b.width ≤ 1 := by
      intro gl
      induction gl with
      | nil => intro out hout b hb; exact hout b hb
      | cons group rest ih =>
        intro out hout b hb
        rw [List.foldl_cons] at hb
        refine ih _ ?_ b hb
        intro c hc
        split at hc
        · rw [List.mem_append] at hc
          rcases hc with hc | hc
          · exact hout c hc
          · obtain ⟨e, _, hceq⟩ := List.mem_map.mp hc
            rw [← hceq]
            norm_num
        · split at hc <;> rw [List.mem_append] at hc <;>
            rcases hc with hc | hc
          · exact hout c hc
          · rename_i hlen heq
            have hn : 0 < group.length := by
              rcases group with _ | ⟨e, g⟩
              · simp at heq
              · simp
            obtain ⟨k, hk, hw⟩ :=
              layDown_mem group.length group 1 c hc
            rw [hw]
            have hkq : (k : ℚ) < (group.length : ℚ) := by exact_mod_cast hk
            have hnq : (0 : ℚ) < (group.length : ℚ) := by exact_mod_cast hn
            constructor
            · have : (k : ℚ) * (1 / (group.length : ℚ)) < 1 := by
                rw [mul_one_div, div_lt_one hnq]
                exact hkq
              linarith
            · have h0 : (0 : ℚ) ≤ (k : ℚ) * (1 / (group.length : ℚ)) := by positivity
              linarith
          · exact hout c hc
          · obtain ⟨e, _, hceq⟩ := List.mem_map.mp hc
            rw [← hceq]
            unfold widthFallback
            cases hget : wmGet (generalWidths group) e.id with
            | none => norm_num
            | some w =>
              unfold wmGet at hget
              obtain ⟨q, hq, hqeq⟩ := Option.map_eq_some'.mp hget
              have := generalWidths_inv group q (List.mem_of_find?_eq_some hq)
              rw [hqeq] at this
              by_cases hz : w = 0
              · simp only [if_pos hz]; norm_num
              · simp only [if_neg hz]; exact this
    intro b hb
    exact main groups [] (by intro b hb; cases hb) b hb

/-- Witness for C9: the block produced for a lone event has its width
inside `(0, 1]`. -/
theorem C9_packing_width_bounds_witness :
    0 < ({ event := soloEvent, width := 1 } : EventBlockData).width ∧
      ({ event := soloEvent, width := 1 } : EventBlockData).width ≤ 1 :=
  C9_packing_width_bounds [soloEvent] (by decide)
    { event := soloEvent, width := 1 } (by decide)

theorem bumpEff_timesOf (evts : List DBEvent) (j : Nat) :
    timesOf (bumpEff evts j) = timesOf evts := by
  unfold bumpEff
  cases h : evts[j]? with
  | none => rfl
  | some e =>
    unfold timesOf
    rw [List.map_set]
    refine List.ext_getElem? ?_
    intro k
    rw [List.getElem?_set]
    split
    · rename_i hjk
      subst hjk
      split
      · rename_i hlt
        rw [List.length_map] at hlt
        rw [List.getElem?_map, List.getElem?_eq_getElem hlt]
        have he : evts[j] = e := by
          rw [List.getElem?_eq_getElem hlt] at h
          exact Option.some_injective _ h
        rw [he]
        rfl
      · rename_i hge
        exact (List.getElem?_eq_none (by simpa using hge)).symm
    · rfl

theorem allocRR_timesOf (act : List Nat) :
    ∀ (T idx : Nat) (evts : List DBEvent),
      timesOf (allocRR act idx evts T) = timesOf evts := by
  intro T
  induction T with
  | zero => intro idx evts; rfl
  | succ T ih =>
    intro idx evts
    rw [allocRR]
    cases h : act[idx]? with
    | none => rfl
    | some j => rw [ih, bumpEff_timesOf]

theorem timesOf_length (evts : List DBEvent) : (timesOf evts).length = evts.length :=
  List.length_map _ _

theorem inSlice_congr {a b : DBEvent} (hs : a.start = b.start) (he : a.«end» = b.«end»)
    (lo hi : Int) : inSlice a lo hi = inSlice b lo hi := by
  unfold inSlice
  rw [hs, he]

theorem activeIndices_congr (evts evts' : List DBEvent) (lo hi : Int)
    (h : timesOf evts = timesOf evts') :
    activeIndices evts lo hi = activeIndices evts' lo hi := by
  have hlen : evts.length = evts'.length := by
    have := congrArg List.length h
    rw [timesOf_length, timesOf_length] at this
    exact this
  unfold activeIndices
  rw [hlen]
  refine List.filter_congr ?_
  intro j hj
  have hjlt : j < evts'.length := List.mem_range.mp hj
  have hjlt' : j < evts.length := by omega
  have h1 := congrArg (fun l => l[j]?) h
  unfold timesOf at h1
  simp only [List.getElem?_map, List.getElem?_eq_getElem hjlt',
    List.getElem?_eq_getElem hjlt, Option.map_some'] at h1
  have h2 := Option.some_injective _ h1
  have hgd : evts.getD j default = evts[j] := by
    rw [List.getD_eq_getElem?_getD, List.getElem?_eq_getElem hjlt']
    rfl
  have hgd' : evts'.getD j default = evts'[j] := by
    rw [List.getD_eq_getElem?_getD, List.getElem?_eq_getElem hjlt]
    rfl
  rw [hgd, hgd', inSlice_congr (congrArg Prod.fst h2) (congrArg Prod.snd h2)]

theorem bumpEff_cons_succ (e : DBEvent) (tl : List DBEvent) (j : Nat) :
    bumpEff (e :: tl) (j + 1) = e :: bumpEff tl j := by
  unfold bumpEff
  rw [List.getElem?_cons_succ]
  cases h : tl[j]? <;> rfl

theorem bumpEff_sumEff : ∀ (evts : List DBEvent) (j : Nat), j < evts.length →
    sumEff (bumpEff evts j) = sumEff evts + 1 := by
  intro evts
  induction evts with
  | nil => intro j hj; cases hj
  | cons e tl ih =>
    intro j hj
    cases j with
    | zero =>
      unfold bumpEff
      rw [List.getElem?_cons_zero]
      unfold sumEff
      simp only [List.set_cons_zero, List.map_cons, List.sum_cons]
      omega
    | succ j =>
      rw [bumpEff_cons_succ]
      unfold sumEff
      simp only [List.map_cons, List.sum_cons]
      have := ih j (by simpa using hj)
      unfold sumEff at this
      omega

theorem bumpEff_length_eq (evts : List DBEvent) (j : Nat) :
    (bumpEff evts j).length = evts.length := bumpEff_length evts j

theorem allocRR_sumEff (act : List Nat) :
    ∀ (T idx : Nat) (evts : List DBEvent),
      act ≠ [] → idx < act.length → (∀ i ∈ act, i < evts.length) →
      sumEff (allocRR act idx evts T) = sumEff evts + T := by
  intro T
  induction T with
  | zero => intro idx evts _ _ _; rfl
  | succ T ih =>
    intro idx evts hne hidx hlen
    have hget : act[idx]? = some (act.getD idx 0) := by
      rw [List.getD_eq_getElem?_getD, List.getElem?_eq_getElem hidx]
      simp [List.getElem?_eq_getElem hidx]
    rw [allocRR, hget]
    have hmem : act.getD idx 0 ∈ act := by
      rw [List.getD_eq_getElem?_getD, List.getElem?_eq_getElem hidx]
      exact List.getElem_mem _
    have hjlt : act.getD idx 0 < evts.length := hlen _ hmem
    rw [ih ((idx + 1) % act.length) _ hne (Nat.mod_lt _ (by omega))
      (by intro i hi; rw [bumpEff_length_eq]; exact hlen i hi)]
    rw [bumpEff_sumEff evts _ hjlt]
    omega

theorem allocRR_nil : ∀ (T idx : Nat) (evts : List DBEvent),
    allocRR [] idx evts T = evts := by
  intro T
  cases T with
  | zero => intro idx evts; rfl
  | succ T => intro idx evts; rfl

/-- One slice of the engine adds exactly `(b2 - b1) / 60000` minutes
to the total when some event is active, and nothing otherwise
(minute-aligned slice). -/
theorem allocLoop_sumEff_slice (evts : List DBEvent) (b1 b2 : Int)
    (hlt : b1 < b2) (hal : (60000 : Int) ∣ (b2 - b1)) :
    sumEff (allocLoop (activeIndices evts b1 b2) 0 evts
        (((b2 - b1 : Int) : ℚ) / (1000 * 60))) =
      sumEff evts +
        (if activeIndices evts b1 b2 = [] then 0 else ((b2 - b1) / 60000).toNat) := by
  rw [allocLoop_eq_allocRR, minutesCeil_eq]
  have hk : minutesCeil (b2 - b1) = (b2 - b1) / 60000 := by
    unfold minutesCeil
    obtain ⟨k, hk⟩ := hal
    rw [hk, show -((60000 : Int) * k) = 60000 * (-k) by ring,
      Int.mul_ediv_cancel_left _ (by norm_num), Int.mul_ediv_cancel_left _ (by norm_num)]
    ring
  have hpos : 1 ≤ (b2 - b1) / 60000 := by
    obtain ⟨k, hk2⟩ := hal
    rw [hk2, Int.mul_ediv_cancel_left _ (by norm_num)]
    nlinarith [hlt]
  rw [hk]
  have hmax : max 1 ((b2 - b1) / 60000).toNat = ((b2 - b1) / 60000).toNat := by omega
  rw [hmax]
  cases hact : activeIndices evts b1 b2 with
  | nil =>
    rw [if_pos rfl, allocRR_nil]
    omega
  | cons a tl =>
    rw [if_neg (by simp)]
    rw [← hact]
    rw [allocRR_sumEff _ _ 0 evts (by rw [hact]; simp) (by rw [hact]; simp)
      (activeIndices_lt_length evts b1 b2)]

/-- Folding the slice loop over any minute-aligned slice list adds
`sliceSum` to the total, as long as the store keeps the times of the
original fetched events. -/
theorem fold_sliceSum (events : List DBEvent) :
    ∀ (pairs : List (Int × Int)) (evts : List DBEvent),
      timesOf evts = timesOf events →
      (∀ p ∈ pairs, p.1 < p.2 ∧ (60000 : Int) ∣ (p.2 - p.1)) →
      sumEff (pairs.foldl
        (fun evts sl => allocLoop (activeIndices evts sl.1 sl.2) 0 evts
          (((sl.2 - sl.1 : Int) : ℚ) / (1000 * 60))) evts) =
        sumEff evts + sliceSum events pairs := by
  intro pairs
  induction pairs with
  | nil =>
    intro evts _ _
    rw [List.foldl_nil, sliceSum]
    omega
  | cons p rest ih =>
    intro evts htimes hP
    obtain ⟨hlt, hal⟩ := hP p (by simp)
    rw [List.foldl_cons]
    cases p with
    | mk b1 b2 =>
      have hstep := allocLoop_sumEff_slice evts b1 b2 hlt hal
      have htimes' : timesOf (allocLoop (activeIndices evts b1 b2) 0 evts
          (((b2 - b1 : Int) : ℚ) / (1000 * 60))) = timesOf events := by
        rw [allocLoop_eq_allocRR, allocRR_timesOf, htimes]
      rw [ih _ htimes' (fun q hq => hP q (by simp [hq])), hstep, sliceSum]
      rw [activeIndices_congr evts events b1 b2 htimes]
      omega

theorem collectTimes_eq_flatten (events : List DBEvent) :
    collectTimes events =
      (events.map (fun e => e.start.toList ++ e.«end».toList)).flatten := by
  unfold collectTimes
  have gen : ∀ (l : List DBEvent) (acc : List Int),
      l.foldl (fun acc e => acc ++ e.start.toList ++ e.«end».toList) acc =
        acc ++ (l.map (fun e => e.start.toList ++ e.«end».toList)).flatten := by
    intro l
    induction l with
    | nil => intro acc; simp
    | cons e tl ih =>
      intro acc
      rw [List.foldl_cons, ih, List.map_cons, List.flatten_cons]
      simp [List.append_assoc]
  rw [gen]
  rfl

theorem getAllBoundaries_eq (events : List DBEvent) :
    _getAllBoundaries events = (collectTimes events).dedup.insertionSort (· ≤ ·) := rfl

theorem mem_getAllBoundaries (events : List DBEvent) (x : Int) :
    x ∈ _getAllBoundaries events ↔ x ∈ collectTimes events := by
  rw [getAllBoundaries_eq]
  rw [(List.perm_insertionSort _ _).mem_iff]
  exact List.mem_dedup

theorem start_mem_collectTimes (events : List DBEvent) (e : DBEvent) (s : Int)
    (he : e ∈ events) (hs : e.start = some s) : s ∈ collectTimes events := by
  rw [collectTimes_eq_flatten, List.mem_flatten]
  exact ⟨e.start.toList ++ e.«end».toList, List.mem_map_of_mem _ he, by simp [hs]⟩

theorem end_mem_collectTimes (events : List DBEvent) (e : DBEvent) (t : Int)
    (he : e ∈ events) (ht : e.«end» = some t) : t ∈ collectTimes events := by
  rw [collectTimes_eq_flatten, List.mem_flatten]
  exact ⟨e.start.toList ++ e.«end».toList, List.mem_map_of_mem _ he, by simp [ht]⟩

theorem mem_collectTimes_elim (events : List DBEvent) (x : Int)
    (hx : x ∈ collectTimes events) :
    ∃ e ∈ events, e.start = some x ∨ e.«end» = some x := by
  rw [collectTimes_eq_flatten, List.mem_flatten] at hx
  obtain ⟨l, hl, hxl⟩ := hx
  obtain ⟨e, he, rfl⟩ := List.mem_map.mp hl
  refine ⟨e, he, ?_⟩
  rw [List.mem_append] at hxl
  rcases hxl with h | h
  · left
    cases hs : e.start with
    | none => rw [hs] at h; cases h
    | some s =>
      rw [hs] at h
      simp only [Option.toList_some, List.mem_singleton] at h
      rw [h]
  · right
    cases ht : e.«end» with
    | none => rw [ht] at h; cases h
    | some t =>
      rw [ht] at h
      simp only [Option.toList_some, List.mem_singleton] at h
      rw [h]

theorem getAllBoundaries_sorted_lt (events : List DBEvent) :
    List.Sorted (· < ·) (_getAllBoundaries events) := by
  rw [getAllBoundaries_eq]
  have hle : List.Sorted (· ≤ ·) ((collectTimes events).dedup.insertionSort (· ≤ ·)) :=
    List.sorted_insertionSort _ _
  have hnd : ((collectTimes events).dedup.insertionSort (· ≤ ·)).Nodup :=
    (List.perm_insertionSort _ _).nodup_iff.mpr (List.nodup_dedup _)
  exact (hle.and hnd).imp (fun h => lt_of_le_of_ne h.1 h.2)

theorem zip_tail_lt (B : List Int) (h : List.Sorted (· < ·) B) :
    ∀ p ∈ B.zip B.tail, p.1 < p.2 := by
  induction B with
  | nil => intro p hp; cases hp
  | cons b t ih =>
    intro p hp
    cases t with
    | nil => cases hp
    | cons b2 t2 =>
      rw [show (b :: b2 :: t2).zip (b :: b2 :: t2).tail =
        (b, b2) :: ((b2 :: t2).zip (b2 :: t2).tail) from rfl, List.mem_cons] at hp
      rcases hp with hp | hp
      · rw [hp]
        exact List.rel_of_sorted_cons h _ (by simp)
      · exact ih h.of_cons p hp

theorem zip_tail_mem (B : List Int) :
    ∀ p ∈ B.zip B.tail, p.1 ∈ B ∧ p.2 ∈ B := by
  intro p hp
  have h1 := List.of_mem_zip hp
  exact ⟨h1.1, List.mem_of_mem_tail h1.2⟩

/-- In a strictly sorted list, nothing sits strictly between two
consecutive elements. -/
theorem suffix_sorted_between (B : List Int) (hs : List.Sorted (· < ·) B)
    (b1 b2 : Int) (rest : List Int) (hsuf : (b1 :: b2 :: rest).IsSuffix B) :
    (∀ x ∈ B, x < b2 → x ≤ b1) ∧ (∀ x ∈ B, b1 < x → b2 ≤ x) := by
  obtain ⟨pre, hpre⟩ := hsuf
  subst hpre
  rw [List.Sorted, List.pairwise_append] at hs
  obtain ⟨hpre_s, hsuf_s, hcross⟩ := hs
  have hb12 : b1 < b2 := List.rel_of_sorted_cons hsuf_s _ (by simp)
  have hrest : ∀ y ∈ rest, b2 < y := List.rel_of_sorted_cons hsuf_s.of_cons
  constructor
  · intro x hx hxlt
    rw [List.mem_append] at hx
    rcases hx with hx | hx
    · exact le_of_lt (hcross x hx b1 (by simp))
    · rw [List.mem_cons] at hx
      rcases hx with rfl | hx
      · exact le_refl _
      · rw [List.mem_cons] at hx
        rcases hx with rfl | hx
        · omega
        · have := hrest x hx
          omega
  · intro x hx hxgt
    rw [List.mem_append] at hx
    rcases hx with hx | hx
    · have := hcross x hx b1 (by simp)
      omega
    · rw [List.mem_cons] at hx
      rcases hx with rfl | hx
      · omega
      · rw [List.mem_cons] at hx
        rcases hx with rfl | hx
        · exact le_refl _
        · have := hrest x hx
          omega

theorem sorted_le_getLastD : ∀ (rest : List Int) (b : Int),
    List.Sorted (· < ·) (b :: rest) → ∀ x ∈ b :: rest, x ≤ rest.getLastD b := by
  intro rest
  induction rest with
  | nil =>
    intro b _ x hx
    rw [List.mem_singleton] at hx
    rw [hx]
    rfl
  | cons c rest2 ih =>
    intro b hsort x hx
    rw [List.getLastD_cons]
    rw [List.mem_cons] at hx
    rcases hx with rfl | hx
    · have hxc : x < c := List.rel_of_sorted_cons hsort _ (by simp)
      have := ih c hsort.of_cons c (by simp)
      omega
    · exact ih c hsort.of_cons x hx

theorem getLastD_mem_cons_self : ∀ (l : List Int) (a : Int), l.getLastD a ∈ a :: l := by
  intro l
  induction l with
  | nil => intro a; simp
  | cons c l2 ih =>
    intro a
    rw [List.getLastD_cons]
    exact List.mem_cons_of_mem a (ih c)

theorem inSlice_intro (e : DBEvent) (lo hi s t : Int) (hs : e.start = some s)
    (ht : e.«end» = some t) (h1 : s ≤ lo) (h2 : hi ≤ t) : inSlice e lo hi = true := by
  unfold inSlice
  rw [hs, ht]
  show (decide (s ≤ lo) && decide (hi ≤ t)) = true
  simp only [Bool.and_eq_true, decide_eq_true_eq]
  exact ⟨h1, h2⟩

theorem inSlice_elim (e : DBEvent) (lo hi : Int) (h : inSlice e lo hi = true) :
    ∃ s t, e.start = some s ∧ e.«end» = some t ∧ s ≤ lo ∧ hi ≤ t := by
  unfold inSlice at h
  cases hs : e.start with
  | none =>
    rw [hs] at h
    cases ht : e.«end» with
    | none =>
      rw [ht] at h
      have h' : false = true := h
      exact absurd h' Bool.false_ne_true
    | some t =>
      rw [ht] at h
      have h' : false = true := h
      exact absurd h' Bool.false_ne_true
  | some s =>
    cases ht : e.«end» with
    | none =>
      rw [hs, ht] at h
      have h' : false = true := h
      exact absurd h' Bool.false_ne_true
    | some t =>
      rw [hs, ht] at h
      have h' : (decide (s ≤ lo) && decide (hi ≤ t)) = true := h
      simp only [Bool.and_eq_true, decide_eq_true_eq] at h'
      exact ⟨s, t, rfl, rfl, h'.1, h'.2⟩

theorem minuteCovered_eq_any_inSlice (events : List DBEvent) (m : Int) :
    minuteCovered events m =
      events.any (fun e => inSlice e (60000 * m) (60000 * (m + 1))) := rfl

theorem minuteCovered_elim (events : List DBEvent) (m : Int)
    (h : minuteCovered events m = true) :
    ∃ e ∈ events, ∃ s t, e.start = some s ∧ e.«end» = some t ∧
      s ≤ 60000 * m ∧ 60000 * (m + 1) ≤ t := by
  rw [minuteCovered_eq_any_inSlice, List.any_eq_true] at h
  obtain ⟨e, he, hp⟩ := h
  have hp' : inSlice e (60000 * m) (60000 * (m + 1)) = true := hp
  obtain ⟨s, t, hs, ht, h1, h2⟩ := inSlice_elim e _ _ hp'
  exact ⟨e, he, s, t, hs, ht, h1, h2⟩

theorem minuteCovered_intro (events : List DBEvent) (m : Int) (e : DBEvent)
    (he : e ∈ events) (s t : Int) (hs : e.start = some s) (ht : e.«end» = some t)
    (h1 : s ≤ 60000 * m) (h2 : 60000 * (m + 1) ≤ t) :
    minuteCovered events m = true := by
  rw [minuteCovered_eq_any_inSlice, List.any_eq_true]
  exact ⟨e, he, inSlice_intro e _ _ s t hs ht h1 h2⟩

/-- Between two consecutive boundaries every minute is covered iff
some event spans the whole slice, so the filtered minute count of the
slice is exactly the engine's per-slice allocation. -/
theorem slice_minutes (events : List DBEvent) (B : List Int)
    (hsorted : List.Sorted (· < ·) B)
    (hSE : ∀ e ∈ events, ∃ s t, e.start = some s ∧ e.«end» = some t ∧ s ∈ B ∧ t ∈ B)
    (b1 b2 : Int) (rest : List Int) (hsuf : (b1 :: b2 :: rest).IsSuffix B)
    (hd1 : (60000 : Int) ∣ b1) (hd2 : (60000 : Int) ∣ b2) :
    ((Finset.Ico (b1 / 60000) (b2 / 60000)).filter
        (fun m => minuteCovered events m = true)).card =
      (if activeIndices events b1 b2 = [] then 0 else ((b2 - b1) / 60000).toNat) := by
  obtain ⟨k1, hk1⟩ := hd1
  obtain ⟨k2, hk2⟩ := hd2
  have hdiv1 : b1 / 60000 = k1 := by
    rw [hk1]
    exact Int.mul_ediv_cancel_left _ (by norm_num)
  have hdiv2 : b2 / 60000 = k2 := by
    rw [hk2]
    exact Int.mul_ediv_cancel_left _ (by norm_num)
  have hbet := suffix_sorted_between B hsorted b1 b2 rest hsuf
  by_cases hact : activeIndices events b1 b2 = []
  · rw [if_pos hact, Finset.card_eq_zero, Finset.filter_eq_empty_iff]
    intro m hm
    rw [Finset.mem_Ico, hdiv1, hdiv2] at hm
    intro hcov
    obtain ⟨e, he, s, t, hs, ht, hps, hpt⟩ := minuteCovered_elim events m hcov
    obtain ⟨s', t', hs', ht', hsB, htB⟩ := hSE e he
    rw [hs] at hs'
    rw [ht] at ht'
    have hseq : s = s' := Option.some_injective _ hs'
    have hteq : t = t' := Option.some_injective _ ht'
    rw [← hseq] at hsB
    rw [← hteq] at htB
    have hslt : s < b2 := by omega
    have hsle : s ≤ b1 := hbet.1 s hsB hslt
    have htgt : b1 < t := by omega
    have htge : b2 ≤ t := hbet.2 t htB htgt
    have hin : inSlice e b1 b2 = true := inSlice_intro e b1 b2 s t hs ht hsle htge
    have hmem : e ∈ _get_events_in_range events b1 b2 := List.mem_filter.mpr ⟨he, hin⟩
    rw [← activeIndices_map_getD, hact] at hmem
    simp at hmem
  · rw [if_neg hact]
    have hex : ∃ e ∈ events, inSlice e b1 b2 = true := by
      cases hia : activeIndices events b1 b2 with
      | nil => exact absurd hia hact
      | cons a tl =>
        have hmap := activeIndices_map_getD events b1 b2
        rw [hia] at hmap
        have hmem : events.getD a default ∈ _get_events_in_range events b1 b2 := by
          rw [← hmap]
          exact List.mem_map_of_mem _ (by simp)
        have h2 := List.mem_filter.mp hmem
        exact ⟨_, h2.1, h2.2⟩
    obtain ⟨e, he, hin⟩ := hex
    obtain ⟨s, t, hs, ht, hsle, htge⟩ := inSlice_elim e b1 b2 hin
    have hfull : (Finset.Ico (b1 / 60000) (b2 / 60000)).filter
        (fun m => minuteCovered events m = true) = Finset.Ico (b1 / 60000) (b2 / 60000) := by
      rw [Finset.filter_eq_self]
      intro m hm
      rw [Finset.mem_Ico, hdiv1, hdiv2] at hm
      exact minuteCovered_intro events m e he s t hs ht (by omega) (by omega)
    rw [hfull, Int.card_Ico, hdiv1, hdiv2]
    have hdd : (b2 - b1) / 60000 = k2 - k1 := by
      rw [hk1, hk2, show (60000 : Int) * k2 - 60000 * k1 = 60000 * (k2 - k1) by ring,
        Int.mul_ediv_cancel_left _ (by norm_num)]
    rw [hdd]

/-- Summed over a suffix of the boundary chain, the engine's slice
allocations count exactly the covered minutes between the first and
the last boundary of the suffix. -/
theorem chain_count (events : List DBEvent) (B : List Int)
    (hsorted : List.Sorted (· < ·) B)
    (halign : ∀ x ∈ B, (60000 : Int) ∣ x)
    (hSE : ∀ e ∈ events, ∃ s t, e.start = some s ∧ e.«end» = some t ∧ s ∈ B ∧ t ∈ B) :
    ∀ (rest : List Int) (b1 : Int), (b1 :: rest).IsSuffix B →
      sliceSum events ((b1 :: rest).zip rest) =
        ((Finset.Ico (b1 / 60000) ((rest.getLastD b1) / 60000)).filter
          (fun m => minuteCovered events m = true)).card := by
  intro rest
  induction rest with
  | nil =>
    intro b1 _
    simp only [List.zip_nil_right, sliceSum, List.getLastD_nil, Finset.Ico_self,
      Finset.filter_empty, Finset.card_empty]
  | cons b2 rest2 ih =>
    intro b1 hsuf
    have hsuf2 : (b2 :: rest2).IsSuffix B := (List.suffix_cons b1 (b2 :: rest2)).trans hsuf
    have hss : List.Sorted (· < ·) (b1 :: b2 :: rest2) :=
      List.Pairwise.sublist hsuf.sublist hsorted
    have hb12 : b1 < b2 := List.rel_of_sorted_cons hss _ (by simp)
    have hb2l : b2 ≤ rest2.getLastD b2 :=
      sorted_le_getLastD rest2 b2 hss.of_cons b2 (by simp)
    have hm12 : b1 / 60000 ≤ b2 / 60000 := Int.ediv_le_ediv (by norm_num) (le_of_lt hb12)
    have hm23 : b2 / 60000 ≤ rest2.getLastD b2 / 60000 :=
      Int.ediv_le_ediv (by norm_num) hb2l
    have hslice := slice_minutes events B hsorted hSE b1 b2 rest2 hsuf
      (halign b1 (hsuf.subset (by simp))) (halign b2 (hsuf.subset (by simp)))
    have hzip : (b1 :: b2 :: rest2).zip (b2 :: rest2) =
        (b1, b2) :: ((b2 :: rest2).zip rest2) := rfl
    rw [hzip]
    simp only [sliceSum]
    rw [ih b2 hsuf2, List.getLastD_cons, ← hslice,
      ← Finset.Ico_union_Ico_eq_Ico hm12 hm23, Finset.filter_union,
      Finset.card_union_of_disjoint
        (Finset.disjoint_filter_filter (Finset.Ico_disjoint_Ico_consecutive _ _ _))]

/-- The ambient recalculation window and the boundary span select the
same covered minutes, because every event lies between the first and
last boundary and inside the window. -/
theorem coveredMinutes_eq_window (events : List DBEvent) (lo hi : Int)
    (b1 : Int) (rest : List Int)
    (hsorted : List.Sorted (· < ·) (b1 :: rest))
    (halign : ∀ x ∈ b1 :: rest, (60000 : Int) ∣ x)
    (hSEB : ∀ e ∈ events, ∃ s t, e.start = some s ∧ e.«end» = some t ∧
      s ∈ b1 :: rest ∧ t ∈ b1 :: rest ∧ 60000 * lo ≤ s ∧ t ≤ 60000 * hi) :
    coveredMinutes events lo hi =
      ((Finset.Ico (b1 / 60000) ((rest.getLastD b1) / 60000)).filter
        (fun m => minuteCovered events m = true)).card := by
  obtain ⟨k1, hk1⟩ := halign b1 (by simp)
  obtain ⟨k3, hk3⟩ := halign (rest.getLastD b1) (getLastD_mem_cons_self rest b1)
  have hdiv1 : b1 / 60000 = k1 := by
    rw [hk1]
    exact Int.mul_ediv_cancel_left _ (by norm_num)
  have hdiv3 : rest.getLastD b1 / 60000 = k3 := by
    rw [hk3]
    exact Int.mul_ediv_cancel_left _ (by norm_num)
  have hmin : ∀ x ∈ b1 :: rest, b1 ≤ x := by
    intro x hx
    rw [List.mem_cons] at hx
    rcases hx with rfl | hx
    · exact le_refl _
    · exact le_of_lt (List.rel_of_sorted_cons hsorted x hx)
  have hmax := sorted_le_getLastD rest b1 hsorted
  unfold coveredMinutes
  rw [hdiv1, hdiv3]
  congr 1
  apply Finset.ext
  intro m
  simp only [Finset.mem_filter, Finset.mem_Ico]
  constructor
  · rintro ⟨⟨h1, h2⟩, hcov⟩
    refine ⟨?_, hcov⟩
    obtain ⟨e, he, s, t, hs, ht, hps, hpt⟩ := minuteCovered_elim events m hcov
    obtain ⟨s', t', hs', ht', hsB, htB, _, _⟩ := hSEB e he
    rw [hs] at hs'
    rw [ht] at ht'
    have hseq : s = s' := Option.some_injective _ hs'
    have hteq : t = t' := Option.some_injective _ ht'
    rw [← hseq] at hsB
    rw [← hteq] at htB
    have hbs := hmin s hsB
    have hbt := hmax t htB
    constructor
    · omega
    · omega
  · rintro ⟨⟨h1, h2⟩, hcov⟩
    refine ⟨?_, hcov⟩
    obtain ⟨e, he, s, t, hs, ht, hps, hpt⟩ := minuteCovered_elim events m hcov
    obtain ⟨s', t', hs', ht', _, _, hlo2, hhi2⟩ := hSEB e he
    rw [hs] at hs'
    rw [ht] at ht'
    have hseq : s = s' := Option.some_injective _ hs'
    have hteq : t = t' := Option.some_injective _ ht'
    rw [← hseq] at hlo2
    rw [← hteq] at hhi2
    constructor
    · omega
    · omega

theorem collectTimes_reset (events : List DBEvent) :
    collectTimes (events.map (fun e => { e with effectiveDuration := 0 })) =
      collectTimes events := by
  rw [collectTimes_eq_flatten, collectTimes_eq_flatten, List.map_map]
  rfl

theorem getAllBoundaries_reset (events : List DBEvent) :
    _getAllBoundaries (events.map (fun e => { e with effectiveDuration := 0 })) =
      _getAllBoundaries events := by
  rw [getAllBoundaries_eq, getAllBoundaries_eq, collectTimes_reset]

theorem timesOf_reset (events : List DBEvent) :
    timesOf (events.map (fun e => { e with effectiveDuration := 0 })) = timesOf events := by
  unfold timesOf
  rw [List.map_map]
  rfl

theorem sumEff_reset (events : List DBEvent) :
    sumEff (events.map (fun e => { e with effectiveDuration := 0 })) = 0 := by
  unfold sumEff
  rw [List.map_map]
  induction events with
  | nil => rfl
  | cons e tl ih =>
    rw [List.map_cons, List.sum_cons, ih]
    rfl

/-- C1 — Duration conservation: running the Duration Allocation Engine
(`recalculateDurations` after the fetch) over minute-aligned timed
events lying inside the minute window `[lo, hi)` produces effective
durations whose total equals the number of wall-clock minutes covered
by at least one event — the measure of the union of the `[start, end)`
intervals — with no double-counting and no loss. -/
theorem C1_duration_conservation (events : List DBEvent) (lo hi : Int)
    (hvalid : ∀ e ∈ events, ∃ s t, e.start = some s ∧ e.«end» = some t ∧
      (60000 : Int) ∣ s ∧ (60000 : Int) ∣ t ∧ 60000 * lo ≤ s ∧ t ≤ 60000 * hi) :
    sumEff (recalcCore events) = coveredMinutes events lo hi := by
  cases hB : _getAllBoundaries events with
  | nil =>
    have hev : events = [] := by
      cases hevs : events with
      | nil => rfl
      | cons e tl =>
        obtain ⟨s, t, hs, _⟩ := hvalid e (by rw [hevs]; simp)
        have hm : s ∈ _getAllBoundaries events :=
          (mem_getAllBoundaries events s).mpr
            (start_mem_collectTimes events e s (by rw [hevs]; simp) hs)
        rw [hB] at hm
        cases hm
    subst hev
    rw [show recalcCore [] = [] from rfl, show sumEff [] = 0 from rfl]
    unfold coveredMinutes
    have hemp : ∀ m ∈ Finset.Ico lo hi, ¬(minuteCovered [] m = true) := by
      intro m _ h
      rw [minuteCovered] at h
      simp at h
    rw [Finset.filter_eq_empty_iff.mpr hemp, Finset.card_empty]
  | cons b1 rest =>
    have hsorted := getAllBoundaries_sorted_lt events
    rw [hB] at hsorted
    have halign : ∀ x ∈ b1 :: rest, (60000 : Int) ∣ x := by
      intro x hx
      rw [← hB] at hx
      obtain ⟨e, he, hor⟩ :=
        mem_collectTimes_elim events x ((mem_getAllBoundaries events x).mp hx)
      obtain ⟨s, t, hs, ht, hds, hdt, _, _⟩ := hvalid e he
      rcases hor with h | h
      · rw [hs] at h
        have hx2 := Option.some_injective _ h
        rw [← hx2]
        exact hds
      · rw [ht] at h
        have hx2 := Option.some_injective _ h
        rw [← hx2]
        exact hdt
    have hSEB : ∀ e ∈ events, ∃ s t, e.start = some s ∧ e.«end» = some t ∧
        s ∈ b1 :: rest ∧ t ∈ b1 :: rest ∧ 60000 * lo ≤ s ∧ t ≤ 60000 * hi := by
      intro e he
      obtain ⟨s, t, hs, ht, _, _, hlo2, hhi2⟩ := hvalid e he
      refine ⟨s, t, hs, ht, ?_, ?_, hlo2, hhi2⟩
      · rw [← hB]
        exact (mem_getAllBoundaries events s).mpr (start_mem_collectTimes events e s he hs)
      · rw [← hB]
        exact (mem_getAllBoundaries events t).mpr (end_mem_collectTimes events e t he ht)
    have hSE : ∀ e ∈ events, ∃ s t, e.start = some s ∧ e.«end» = some t ∧
        s ∈ b1 :: rest ∧ t ∈ b1 :: rest := by
      intro e he
      obtain ⟨s, t, hs, ht, hsB, htB, _, _⟩ := hSEB e he
      exact ⟨s, t, hs, ht, hsB, htB⟩
    have hrc : recalcCore events =
        (((b1 :: rest).zip rest).foldl
          (fun evts sl => allocLoop (activeIndices evts sl.1 sl.2) 0 evts
            (((sl.2 - sl.1 : Int) : ℚ) / (1000 * 60)))
          (events.map (fun e => { e with effectiveDuration := 0 }))) := by
      show (((_getAllBoundaries (events.map (fun e => { e with effectiveDuration := 0 }))).zip
          (_getAllBoundaries (events.map (fun e => { e with effectiveDuration := 0 }))).tail).foldl
          (fun evts sl => allocLoop (activeIndices evts sl.1 sl.2) 0 evts
            (((sl.2 - sl.1 : Int) : ℚ) / (1000 * 60)))
          (events.map (fun e => { e with effectiveDuration := 0 }))) = _
      rw [getAllBoundaries_reset, hB]
      rfl
    rw [hrc]
    have hpairs : ∀ p ∈ (b1 :: rest).zip rest, p.1 < p.2 ∧ (60000 : Int) ∣ (p.2 - p.1) := by
      intro p hp
      have hp' : p ∈ (b1 :: rest).zip (b1 :: rest).tail := hp
      have hlt := zip_tail_lt (b1 :: rest) hsorted p hp'
      have hmems := zip_tail_mem (b1 :: rest) p hp'
      exact ⟨hlt, dvd_sub (halign p.2 hmems.2) (halign p.1 hmems.1)⟩
    rw [fold_sliceSum events ((b1 :: rest).zip rest)
      (events.map (fun e => { e with effectiveDuration := 0 }))
      (timesOf_reset events) hpairs]
    rw [sumEff_reset]
    rw [chain_count events (b1 :: rest) hsorted halign hSE rest b1 (List.suffix_refl _)]
    rw [coveredMinutes_eq_window events lo hi b1 rest hsorted halign hSEB]
    exact Nat.zero_add _

theorem C1_duration_conservation_witness :
    (∀ e ∈ [eventA, eventB], ∃ s t, e.start = some s ∧ e.«end» = some t ∧
      (60000 : Int) ∣ s ∧ (60000 : Int) ∣ t ∧ 60000 * 540 ≤ s ∧ t ≤ 60000 * 630) ∧
    sumEff (recalcCore [eventA, eventB]) = coveredMinutes [eventA, eventB] 540 630 := by
  have hv : ∀ e ∈ [eventA, eventB], ∃ s t, e.start = some s ∧ e.«end» = some t ∧
      (60000 : Int) ∣ s ∧ (60000 : Int) ∣ t ∧ 60000 * 540 ≤ s ∧ t ≤ 60000 * 630 := by
    intro e he
    rw [List.mem_cons] at he
    rcases he with rfl | he
    · exact ⟨32400000, 36000000, rfl, rfl, ⟨540, by norm_num⟩, ⟨600, by norm_num⟩,
        by norm_num, by norm_num⟩
    · rw [List.mem_cons] at he
      rcases he with rfl | he
      · exact ⟨34200000, 37800000, rfl, rfl, ⟨570, by norm_num⟩, ⟨630, by norm_num⟩,
          by norm_num, by norm_num⟩
      · cases he
  exact ⟨hv, C1_duration_conservation [eventA, eventB] 540 630 hv⟩

/-- C3 — counterexample: for the window `[1h, 2h]` the padded window
is `[0h, 3h]`; the stored timed event `[0h, 2h)` intersects the
padded window (it even covers its first two hours), is not all-day,
and does not start after `to` — yet `_fetch_all_events` returns
nothing, because the no-cursor page condition `start > from` is
strict and the event starts exactly at the padded lower bound. -/
theorem C3_counterexample :
    _pad_date_range 3600000 7200000 = (0, 10800000) ∧
    eventC3.start = some 0 ∧ eventC3.«end» = some 7200000 ∧
    boolTruthy eventC3.isAllDay = false ∧
    (0 : Int) < 10800000 ∧ (0 : Int) < 7200000 ∧
    _fetch_all_events 2 [eventC3] 0 10800000 = [] := by
  refine ⟨rfl, rfl, rfl, rfl, by decide, by decide, ?_⟩
  decide

theorem startKey_some (e : DBEvent) (s : Int) (hs : e.start = some s) :
    startKey e = (s : WithBot Int) := by
  unfold startKey
  rw [hs]

theorem cursorKey_eq (e : DBEvent) (s : Int) (hs : e.start = some s) :
    cursorKey { start := s, id := e.id } = keyOf e := by
  unfold cursorKey keyOf
  rw [startKey_some e s hs]

theorem keyOf_inj_id {a b : DBEvent} (h : keyOf a = keyOf b) : a.id = b.id := by
  unfold keyOf at h
  have h2 := toLex.injective h
  exact congrArg Prod.snd h2

theorem key_lt_iff (a b : DBEvent) :
    keyOf a < keyOf b ↔
      (startKey a < startKey b ∨ (startKey a = startKey b ∧ a.id < b.id)) :=
  Prod.Lex.lt_iff _ _

theorem key_lt_start_le {a b : DBEvent} (h : keyOf a < keyOf b) :
    startKey a ≤ startKey b := by
  rcases (key_lt_iff a b).mp h with h | ⟨h, _⟩
  · exact le_of_lt h
  · exact le_of_eq h

theorem key_le_start_le {a b : DBEvent} (h : keyOf a ≤ keyOf b) :
    startKey a ≤ startKey b := by
  rcases lt_or_eq_of_le h with h | h
  · exact key_lt_start_le h
  · unfold keyOf at h
    have h2 := toLex.injective h
    exact le_of_eq (congrArg Prod.fst h2)

theorem sortByStartId_perm (store : List DBEvent) :
    (sortByStartId store).Perm store := List.perm_insertionSort rowLe store

theorem sortByStartId_sorted (store : List DBEvent) :
    List.Sorted rowLe (sortByStartId store) := List.sorted_insertionSort rowLe store

theorem sortByStartId_pairwise_lt (store : List DBEvent)
    (hnd : (store.map (fun e => e.id)).Nodup) :
    List.Pairwise (fun a b => keyOf a < keyOf b) (sortByStartId store) := by
  have hsorted := sortByStartId_sorted store
  have hndm : ((sortByStartId store).map (fun e => e.id)).Nodup :=
    (((sortByStartId_perm store).map (fun e => e.id)).nodup_iff).mpr hnd
  have hpne : List.Pairwise (fun a b => a.id ≠ b.id) (sortByStartId store) := by
    have h2 : List.Pairwise Ne ((sortByStartId store).map (fun e => e.id)) := hndm
    rw [List.pairwise_map] at h2
    exact h2
  refine (hsorted.and hpne).imp ?_
  rintro a b ⟨hle, hne⟩
  exact lt_of_le_of_ne hle (fun heq => hne (keyOf_inj_id heq))

theorem pageCond_isSome (c : Option EventCursor) (lo : Int) (e : DBEvent)
    (h : pageCond c lo e = true) : ∃ s, e.start = some s := by
  cases hs : e.start with
  | some s => exact ⟨s, rfl⟩
  | none =>
    exfalso
    cases c with
    | none => simp [pageCond, hs] at h
    | some c0 => simp [pageCond, hs] at h

theorem pageCond_none_iff (lo : Int) (e : DBEvent) :
    pageCond none lo e = true ↔ ∃ s, e.start = some s ∧ lo < s := by
  cases hs : e.start with
  | none => simp [pageCond, hs]
  | some s =>
    unfold pageCond
    rw [hs]
    show decide (lo < s) = true ↔ _
    simp only [decide_eq_true_eq]
    constructor
    · intro h
      exact ⟨s, rfl, h⟩
    · rintro ⟨s', hs', h⟩
      have h2 := Option.some_injective _ hs'
      rw [h2]
      exact h

theorem pageCond_some_iff (c : EventCursor) (lo : Int) (e : DBEvent) :
    pageCond (some c) lo e = true ↔
      ((∃ s, e.start = some s) ∧ cursorKey c < keyOf e) := by
  cases hs : e.start with
  | none =>
    simp only [pageCond, hs]
    constructor
    · intro h
      exact absurd h Bool.false_ne_true
    · rintro ⟨⟨s, hs'⟩, _⟩
      cases hs'
  | some s =>
    unfold pageCond
    rw [hs]
    show (decide (c.start < s) || (decide (s = c.start) && decide (c.id < e.id))) = true ↔ _
    have hk : keyOf e = toLex ((s : WithBot Int), e.id) := by
      unfold keyOf
      rw [startKey_some e s hs]
    rw [hk]
    unfold cursorKey
    rw [Prod.Lex.lt_iff]
    simp only [Bool.or_eq_true, Bool.and_eq_true, decide_eq_true_eq, WithBot.coe_lt_coe,
      WithBot.coe_eq_coe]
    constructor
    · intro h
      refine ⟨⟨s, rfl⟩, ?_⟩
      rcases h with h | ⟨h1, h2⟩
      · exact Or.inl h
      · exact Or.inr ⟨h1.symm, h2⟩
    · rintro ⟨-, h | ⟨h1, h2⟩⟩
      · exact Or.inl h
      · exact Or.inr ⟨h1.symm, h2⟩

/-- The page condition selects an upward-closed set of (non-null
start) rows in sort-key order. -/
theorem pageCond_upward (c : Option EventCursor) (lo : Int) (a b : DBEvent)
    (sa sb : Int) (hsa : a.start = some sa) (hsb : b.start = some sb)
    (hab : keyOf a ≤ keyOf b) (hta : pageCond c lo a = true) :
    pageCond c lo b = true := by
  cases c with
  | none =>
    obtain ⟨s', hs', hlt⟩ := (pageCond_none_iff lo a).mp hta
    rw [hsa] at hs'
    have he := Option.some_injective _ hs'
    have hstart := key_le_start_le hab
    rw [startKey_some a sa hsa, startKey_some b sb hsb] at hstart
    have hsasb : sa ≤ sb := WithBot.coe_le_coe.mp hstart
    exact (pageCond_none_iff lo b).mpr ⟨sb, hsb, by omega⟩
  | some c0 =>
    obtain ⟨-, hlt⟩ := (pageCond_some_iff c0 lo a).mp hta
    exact (pageCond_some_iff c0 lo b).mpr ⟨⟨sb, hsb⟩, lt_of_lt_of_le hlt hab⟩

theorem skipEvent_eq (hi : Int) (e : DBEvent) (s : Int) (hs : e.start = some s)
    (had : boolTruthy e.isAllDay = false) : skipEvent hi e = decide (hi < s) := by
  unfold skipEvent
  rw [had, hs]
  show (false || decide (hi < s)) = decide (hi < s)
  rw [Bool.false_or]

theorem take_key_le (R : List DBEvent)
    (hPW : List.Pairwise (fun a b => keyOf a < keyOf b) R)
    (i : Nat) (hi : i < R.length) :
    ∀ a ∈ R.take (i + 1), keyOf a ≤ keyOf (R[i]) := by
  intro a ha
  rw [List.mem_iff_getElem] at ha
  obtain ⟨j, hj, rfl⟩ := ha
  rw [List.length_take] at hj
  have hj2 : j < R.length := by omega
  rw [List.getElem_take]
  rcases Nat.lt_or_ge j i with h | h
  · exact le_of_lt ((List.pairwise_iff_getElem.mp hPW) j i hj2 hi h)
  · have hji : j = i := by omega
    subst hji
    exact le_refl _

theorem drop_key_lt (R : List DBEvent)
    (hPW : List.Pairwise (fun a b => keyOf a < keyOf b) R)
    (i : Nat) (hi : i < R.length) :
    ∀ b ∈ R.drop (i + 1), keyOf (R[i]) < keyOf b := by
  intro b hb
  rw [List.mem_iff_getElem] at hb
  obtain ⟨j, hj, rfl⟩ := hb
  rw [List.length_drop] at hj
  rw [List.getElem_drop]
  exact (List.pairwise_iff_getElem.mp hPW) i (i + 1 + j) hi (by omega) (by omega)

theorem filter_key_split (A B : List DBEvent) (κ : Lex (WithBot Int × String))
    (hA : ∀ a ∈ A, ¬(κ < keyOf a)) (hB : ∀ b ∈ B, κ < keyOf b) :
    (A ++ B).filter (fun e => decide (κ < keyOf e)) = B := by
  have h1 : A.filter (fun e => decide (κ < keyOf e)) = [] := by
    rw [List.filter_eq_nil_iff]
    intro a ha
    simp only [decide_eq_true_eq]
    exact hA a ha
  have h2 : B.filter (fun e => decide (κ < keyOf e)) = B := by
    rw [List.filter_eq_self]
    intro b hb
    simp only [decide_eq_true_eq]
    exact hB b hb
  rw [List.filter_append, h1, h2, List.nil_append]

/-- A short page: at most `pageSize` matching rows means no `hasMore`
and no cursor, and the page is the whole remaining result set. -/
theorem gep_of_short (store : List DBEvent) (c : Option EventCursor) (d : Int)
    (h : (pageResults store 500 c d).length ≤ 500) :
    getEventsPaginated store 500 c d =
      { events := pageResults store 500 c d, hasMore := false, nextCursor := none } := by
  have hhm : decide (500 < (pageResults store 500 c d).length) = false := by
    rw [decide_eq_false_iff_not]
    omega
  unfold getEventsPaginated
  simp [hhm]

/-- A full page: 501 or more matching rows means the page is the
first 500 of them, `hasMore` is set and the cursor points at the
500th row. -/
theorem gep_of_long (store : List DBEvent) (c : Option EventCursor) (d : Int)
    (R : List DBEvent) (hR : (sortByStartId store).filter (pageCond c d) = R)
    (hlong : 501 ≤ R.length) (h499 : 499 < R.length) (s : Int)
    (hs : (R[499]).start = some s) :
    getEventsPaginated store 500 c d =
      { events := R.take 500, hasMore := true,
        nextCursor := some { start := s, id := (R[499]).id } } := by
  have hres : pageResults store 500 c d = R.take 501 := by
    unfold pageResults
    rw [hR]
  have hlen : (pageResults store 500 c d).length = 501 := by
    rw [hres, List.length_take]
    omega
  have hhm : decide (500 < (pageResults store 500 c d).length) = true := by
    rw [hlen]
    decide
  have hev : (pageResults store 500 c d).take 500 = R.take 500 := by
    rw [hres, List.take_take]
    norm_num
  have hlne : (R.take 500).length = 500 := by
    rw [List.length_take]
    omega
  have hne : (R.take 500).isEmpty = false := by
    cases hie : (R.take 500).isEmpty with
    | false => rfl
    | true =>
      exfalso
      rw [List.isEmpty_iff] at hie
      rw [hie] at hlne
      simp at hlne
  have hlast : (R.take 500).getLast? = some (R[499]) := by
    rw [List.getLast?_eq_getElem? _, hlne]
    show (R.take 500)[499]? = _
    rw [List.getElem?_take, if_pos (by omega)]
    exact List.getElem?_eq_getElem (by omega)
  unfold getEventsPaginated
  simp [hhm, hev, hne, hlast, hs]

/-- Invariant of the pagination loop: if the remaining (keyset-
filtered, sorted) result set is `R` and the fuel dominates the page
count, the loop appends exactly what the page-chunking reference
model produces from `R` — including the early stop on a page that
contributes nothing. -/
theorem fetchLoop_spec (store : List DBEvent) (lo hi : Int)
    (hnd : (store.map (fun e => e.id)).Nodup) :
    ∀ (fuel : Nat) (c : Option EventCursor) (acc R : List DBEvent),
      (sortByStartId store).filter (pageCond c lo) = R →
      R.length < 500 * fuel →
      fetchLoop store lo hi fuel c acc = acc ++ chunkedFetch hi fuel R := by
  intro fuel
  induction fuel with
  | zero =>
    intro c acc R hR hfuel
    exact absurd hfuel (by omega)
  | succ fuel ih =>
    intro c acc R hR hfuel
    have hPWR : List.Pairwise (fun a b => keyOf a < keyOf b) R := by
      rw [← hR]
      exact List.Pairwise.sublist (List.filter_sublist _) (sortByStartId_pairwise_lt store hnd)
    have hcondR : ∀ e ∈ R, pageCond c lo e = true := by
      intro e he
      rw [← hR] at he
      exact (List.mem_filter.mp he).2
    have hsomeR : ∀ e ∈ R, ∃ s, e.start = some s :=
      fun e he => pageCond_isSome _ _ _ (hcondR e he)
    have hres : pageResults store 500 c lo = R.take 501 := by
      unfold pageResults
      rw [hR]
    by_cases hlong : 501 ≤ R.length
    · -- full page
      have h499 : 499 < R.length := by omega
      have hlemem : R[499] ∈ R := List.getElem_mem h499
      obtain ⟨s, hs⟩ := hsomeR _ hlemem
      have hgep := gep_of_long store c lo R hR hlong h499 s hs
      simp only [fetchLoop, hgep]
      by_cases hkept : ((R.take 500).filter (fun e => !skipEvent hi e)).isEmpty = true
      · -- a full page contributes nothing: the loop aborts, and so
        -- does the reference model
        have hkeptnil : (R.take 500).filter (fun e => !skipEvent hi e) = [] :=
          List.isEmpty_iff.mp hkept
        simp only [chunkedFetch]
        rw [if_pos hlong, if_pos hkept, hkeptnil]
        simp
      · -- at least one row kept: recurse on the next page
        have hkeptne : ((R.take 500).filter (fun e => !skipEvent hi e)).isEmpty = false :=
          Bool.eq_false_iff.mpr hkept
        have hlecond : pageCond c lo (R[499]) = true := hcondR _ hlemem
        have hcur : cursorKey { start := s, id := (R[499]).id } = keyOf (R[499]) :=
          cursorKey_eq _ _ hs
        have hcong : ∀ e ∈ sortByStartId store,
            pageCond (some { start := s, id := (R[499]).id }) lo e =
              (decide (cursorKey { start := s, id := (R[499]).id } < keyOf e) &&
                pageCond c lo e) := by
          intro e _
          by_cases hpc : pageCond c lo e = true
          · rw [hpc, Bool.and_true]
            obtain ⟨se, hse⟩ := pageCond_isSome _ _ _ hpc
            cases hdec : decide (cursorKey { start := s, id := (R[499]).id } < keyOf e) with
            | true =>
              exact (pageCond_some_iff _ _ _).mpr ⟨⟨se, hse⟩, of_decide_eq_true hdec⟩
            | false =>
              cases hx : pageCond (some { start := s, id := (R[499]).id }) lo e with
              | false => rfl
              | true =>
                exact absurd ((pageCond_some_iff _ _ _).mp hx).2 (of_decide_eq_false hdec)
          · have hpcf : pageCond c lo e = false := Bool.eq_false_iff.mpr hpc
            rw [hpcf, Bool.and_false]
            cases hx : pageCond (some { start := s, id := (R[499]).id }) lo e with
            | false => rfl
            | true =>
              exfalso
              obtain ⟨⟨se, hse⟩, hκ⟩ := (pageCond_some_iff _ _ _).mp hx
              rw [hcur] at hκ
              exact hpc (pageCond_upward c lo (R[499]) e s se hs hse (le_of_lt hκ) hlecond)
        have hstep : (sortByStartId store).filter
            (pageCond (some { start := s, id := (R[499]).id }) lo) = R.drop 500 := by
          rw [List.filter_congr hcong, ← List.filter_filter, hR, hcur]
          have hsplit := filter_key_split (R.take 500) (R.drop 500) (keyOf (R[499]))
            (fun a ha => not_lt.mpr (take_key_le R hPWR 499 h499 a ha))
            (drop_key_lt R hPWR 499 h499)
          rw [List.take_append_drop] at hsplit
          exact hsplit
        have hlen' : (R.drop 500).length < 500 * fuel := by
          rw [List.length_drop]
          omega
        have hrec := ih (some { start := s, id := (R[499]).id })
          (acc ++ (R.take 500).filter (fun e => !skipEvent hi e)) (R.drop 500) hstep hlen'
        simp only [chunkedFetch]
        rw [if_pos hlong, if_neg hkept]
        rw [hkeptne]
        simp only [Bool.not_false, Bool.and_true]
        rw [if_true, hrec, List.append_assoc]
    · -- short page: the loop stops after appending everything left,
      -- as does the reference model
      have hshort : (pageResults store 500 c lo).length ≤ 500 := by
        rw [hres, List.length_take]
        omega
      have hgep := gep_of_short store c lo hshort
      have hevR : pageResults store 500 c lo = R := by
        rw [hres]
        exact List.take_of_length_le (by omega)
      simp only [fetchLoop, hgep, hevR, chunkedFetch]
      rw [if_neg hlong]
      simp

/-- Whatever the reference model produces is a sublist of the kept
rows — sound and in order, never inventing events. -/
theorem chunkedFetch_sublist (hi : Int) :
    ∀ (fuel : Nat) (F : List DBEvent),
      (chunkedFetch hi fuel F).Sublist (F.filter (fun e => !skipEvent hi e)) := by
  intro fuel
  induction fuel with
  | zero =>
    intro F
    exact List.nil_sublist _
  | succ fuel ih =>
    intro F
    simp only [chunkedFetch]
    by_cases hlong : 501 ≤ F.length
    · rw [if_pos hlong]
      by_cases hkept : ((F.take 500).filter (fun e => !skipEvent hi e)).isEmpty = true
      · rw [if_pos hkept]
        exact List.nil_sublist _
      · rw [if_neg hkept]
        have h3 : ((F.take 500).filter (fun e => !skipEvent hi e) ++
            chunkedFetch hi fuel (F.drop 500)).Sublist
            ((F.take 500).filter (fun e => !skipEvent hi e) ++
              (F.drop 500).filter (fun e => !skipEvent hi e)) :=
          List.Sublist.append (List.Sublist.refl _) (ih (F.drop 500))
        have h4 : (F.take 500).filter (fun e => !skipEvent hi e) ++
            (F.drop 500).filter (fun e => !skipEvent hi e) =
            F.filter (fun e => !skipEvent hi e) := by
          rw [← List.filter_append, List.take_append_drop]
        rw [h4] at h3
        exact h3
    · rw [if_neg hlong]

/-- If no full page of 500 consecutive candidate rows is entirely
skipped, the reference model keeps everything. -/
theorem chunkedFetch_complete (hi : Int) :
    ∀ (fuel : Nat) (F : List DBEvent),
      F.length < 500 * fuel →
      (∀ k : Nat, 500 * k + 501 ≤ F.length →
        ∃ e ∈ (F.drop (500 * k)).take 500, (!skipEvent hi e) = true) →
      chunkedFetch hi fuel F = F.filter (fun e => !skipEvent hi e) := by
  intro fuel
  induction fuel with
  | zero =>
    intro F hfuel _
    exact absurd hfuel (by omega)
  | succ fuel ih =>
    intro F hfuel hfull
    simp only [chunkedFetch]
    by_cases hlong : 501 ≤ F.length
    · rw [if_pos hlong]
      have h0 := hfull 0 (by omega)
      simp only [Nat.mul_zero, List.drop_zero] at h0
      obtain ⟨e, he, hke⟩ := h0
      have hne : ((F.take 500).filter (fun e => !skipEvent hi e)).isEmpty = false := by
        cases hie : ((F.take 500).filter (fun e => !skipEvent hi e)).isEmpty with
        | false => rfl
        | true =>
          exfalso
          have hnil := List.isEmpty_iff.mp hie
          have hm : e ∈ (F.take 500).filter (fun e => !skipEvent hi e) :=
            List.mem_filter.mpr ⟨he, hke⟩
          rw [hnil] at hm
          cases hm
      have hcond : ¬(((F.take 500).filter (fun e => !skipEvent hi e)).isEmpty = true) := by
        rw [hne]
        exact Bool.false_ne_true
      rw [if_neg hcond]
      have hlen' : (F.drop 500).length < 500 * fuel := by
        rw [List.length_drop]
        omega
      have hfull' : ∀ k : Nat, 500 * k + 501 ≤ (F.drop 500).length →
          ∃ e ∈ ((F.drop 500).drop (500 * k)).take 500, (!skipEvent hi e) = true := by
        intro k hk
        rw [List.length_drop] at hk
        have h2 := hfull (k + 1) (by omega)
        rw [List.drop_drop]
        have h3 : 500 + 500 * k = 500 * (k + 1) := by ring
        rw [h3]
        exact h2
      rw [ih (F.drop 500) hlen' hfull']
      rw [← List.filter_append, List.take_append_drop]
    · rw [if_neg hlong]

/-- Filtering the candidate rows (`start > lo`) by the loop's keep
test is the same as selecting the timed events in `(lo, hi]` from the
sorted table. -/
theorem keep_filter_eq_want (store : List DBEvent) (lo hi : Int) :
    ((sortByStartId store).filter (pageCond none lo)).filter (fun e => !skipEvent hi e) =
      (sortByStartId store).filter (wantEvent lo hi) := by
  rw [List.filter_filter]
  refine List.filter_congr ?_
  intro e _
  cases hs : e.start with
  | none =>
    simp [pageCond, wantEvent, inWindow, hs]
  | some s =>
    have hp : pageCond none lo e = decide (lo < s) := by
      unfold pageCond
      rw [hs]
    have hw : inWindow lo hi e = (decide (lo < s) && decide (s ≤ hi)) := by
      unfold inWindow
      rw [hs]
    have hsk : skipEvent hi e = (boolTruthy e.isAllDay || decide (hi < s)) := by
      unfold skipEvent
      rw [hs]
    rw [hp, hsk]
    unfold wantEvent
    rw [hw, Bool.not_or, ← decide_not, decide_eq_decide.mpr not_lt]
    cases boolTruthy e.isAllDay <;> cases hd1 : decide (lo < s) <;>
      cases hd2 : decide (s ≤ hi) <;> simp

/-- C3 (amended) — Fetch behaviour: with pairwise-distinct event ids
(the primary key) and enough fuel for the unbounded pagination loop,
`_fetch_all_events` over the padded window `(lo, hi]` (1) equals the
page-chunking reference model — the candidate rows, sorted by
`(start, id)` and restricted by the strict condition `start > lo`,
are consumed in pages of 500, each page contributing its non-all-day
rows with `start ≤ hi`, and a full page contributing nothing aborts
the loop (`hasMore && gotOne`); (2) is always a sublist of the timed
events with `lo < start ≤ hi`, so nothing out of order or outside the
window is returned — but events starting at or before the padded
lower bound are never fetched (see the counterexample); and (3)
equals that full list whenever no full page of 500 consecutive
candidates is entirely skipped — otherwise the early termination can
drop later in-window events, e.g. behind 500 consecutive all-day
rows. -/
theorem C3_fetch_window_exact (store : List DBEvent) (lo hi : Int) (fuel : Nat)
    (hnd : (store.map (fun e => e.id)).Nodup)
    (hfuel : store.length < 500 * fuel) :
    _fetch_all_events fuel store lo hi =
      chunkedFetch hi fuel ((sortByStartId store).filter (pageCond none lo)) ∧
    (_fetch_all_events fuel store lo hi).Sublist
      ((sortByStartId store).filter (wantEvent lo hi)) ∧
    ((∀ k : Nat, 500 * k + 501 ≤ ((sortByStartId store).filter (pageCond none lo)).length →
        ∃ e ∈ (((sortByStartId store).filter (pageCond none lo)).drop (500 * k)).take 500,
          (!skipEvent hi e) = true) →
      _fetch_all_events fuel store lo hi = (sortByStartId store).filter (wantEvent lo hi)) := by
  have hflen : ((sortByStartId store).filter (pageCond none lo)).length < 500 * fuel := by
    have h1 : ((sortByStartId store).filter (pageCond none lo)).length ≤
        (sortByStartId store).length := List.length_filter_le _ _
    have h2 : (sortByStartId store).length = store.length := (sortByStartId_perm store).length_eq
    omega
  have h1 : _fetch_all_events fuel store lo hi =
      chunkedFetch hi fuel ((sortByStartId store).filter (pageCond none lo)) := by
    unfold _fetch_all_events
    rw [fetchLoop_spec store lo hi hnd fuel none [] _ rfl hflen, List.nil_append]
  refine ⟨h1, ?_, ?_⟩
  · rw [h1, ← keep_filter_eq_want store lo hi]
    exact chunkedFetch_sublist hi fuel _
  · intro hfull
    rw [h1, chunkedFetch_complete hi fuel _ hflen hfull, keep_filter_eq_want]

theorem C3_fetch_window_exact_witness :
    (([eventC3w, eventC3a].map (fun e => e.id)).Nodup) ∧
    ([eventC3w, eventC3a].length < 500 * 1) ∧
    (_fetch_all_events 1 [eventC3w, eventC3a] 0 200 =
        chunkedFetch 200 1 ((sortByStartId [eventC3w, eventC3a]).filter (pageCond none 0)) ∧
      (_fetch_all_events 1 [eventC3w, eventC3a] 0 200).Sublist
        ((sortByStartId [eventC3w, eventC3a]).filter (wantEvent 0 200)) ∧
      ((∀ k : Nat, 500 * k + 501 ≤
            ((sortByStartId [eventC3w, eventC3a]).filter (pageCond none 0)).length →
          ∃ e ∈ (((sortByStartId [eventC3w, eventC3a]).filter
              (pageCond none 0)).drop (500 * k)).take 500,
            (!skipEvent 200 e) = true) →
        _fetch_all_events 1 [eventC3w, eventC3a] 0 200 =
          (sortByStartId [eventC3w, eventC3a]).filter (wantEvent 0 200))) :=
  ⟨by decide, by decide,
    C3_fetch_window_exact [eventC3w, eventC3a] 0 200 1 (by decide) (by decide)⟩

end WIMT
